import Mathlib

/-!
Verification of the variant-session lifecycle manager of
`mcp_worktree_voting.py` and `worktree_workflows.py`.

The Python state (the global `sessions` dict, the per-session dicts
`worktrees`, `implementations`, `evaluations`) is embedded as insertion-ordered
association lists, matching Python-dict semantics: lookup finds the (unique)
key, assignment updates in place preserving order or appends a fresh key, and
`del` removes the key.  External effects (git subprocess calls, file reads,
test runs) are embedded as explicit effect lists (`GitCmd`) and oracle
parameters (the outcome of `git merge`, the content test of `execution.log`,
the result of `evaluate_implementation` on a working copy).
-/

/-- Python dict lookup (`d[k]` / `d.get(k)`): first entry with the key. -/
def alookup {α : Type} : List (String × α) → String → Option α
  | [], _ => none
  | (k, v) :: rest, key => if k = key then some v else alookup rest key

/-- Python dict assignment `d[k] = v`: update in place (keeping the position
of an existing key) or append a fresh key, as insertion-ordered dicts do. -/
def dictSet {α : Type} : List (String × α) → String → α → List (String × α)
  | [], k, v => [(k, v)]
  | (k', v') :: rest, k, v =>
    if k' = k then (k, v) :: rest else (k', v') :: dictSet rest k v

/-- Python dict deletion `del d[k]`: drop the entry with the key. -/
def removeKey {α : Type} : List (String × α) → String → List (String × α)
  | [], _ => []
  | (k', v') :: rest, k => if k' = k then rest else (k', v') :: removeKey rest k

/-- Position of a key in a key list; creation order of a variant is its
position in the session's insertion-ordered `worktrees` dict. -/
def idxOf (k : String) : List String → Nat
  | [] => 0
  | x :: xs => if x = k then 0 else idxOf k xs + 1

/-- Accumulator worker for `pySplitP`. -/
def splitPAux (p : Char → Bool) : List Char → List Char → List (List Char)
  | [], acc => [acc.reverse]
  | x :: xs, acc =>
    if p x then acc.reverse :: splitPAux p xs [] else splitPAux p xs (x :: acc)

/-- Split a character list at every character satisfying `p`, keeping empty
pieces (like Python `str.split(sep)` does for a one-character separator). -/
def pySplitP (p : Char → Bool) (l : List Char) : List (List Char) :=
  splitPAux p l []

/-- Python `str.split(c)` for a single-character separator. -/
def pySplit (c : Char) (l : List Char) : List (List Char) :=
  pySplitP (fun x => x = c) l

/-- Python `str.split()` with no argument: split on whitespace, dropping
empty pieces. -/
def pyWords (l : List Char) : List (List Char) :=
  (pySplitP Char.isWhitespace l).filter (fun t => !t.isEmpty)

/-- Python `str.strip()`: drop leading and trailing whitespace. -/
def pyStrip (l : List Char) : List Char :=
  ((l.dropWhile Char.isWhitespace).reverse.dropWhile Char.isWhitespace).reverse

/-- Whether `n` occurs at the front of the second list. -/
def seqStarts : List Char → List Char → Bool
  | [], _ => true
  | _ :: _, [] => false
  | a :: as, b :: bs => a = b && seqStarts as bs

/-- Decision procedure for Python's substring test `n in l`. -/
def containsSeq (n : List Char) : List Char → Bool
  | [] => n.isEmpty
  | c :: rest => seqStarts n (c :: rest) || containsSeq n rest

/-- The proposition that `n` occurs contiguously inside `l`. -/
def seqIn (n l : List Char) : Prop := ∃ s t, l = s ++ n ++ t

/-- Value of a list of decimal digits. -/
def natOfDigits (l : List Char) : Nat :=
  l.foldl (fun acc c => 10 * acc + (c.toNat - 48)) 0

/-- Python `int(token)` on the tokens that occur in diff-stat summaries:
succeeds exactly on nonempty all-digit tokens; anything else raises, which
the embedding reports as `none`. -/
def pyInt (t : List Char) : Option Nat :=
  if !t.isEmpty && t.all Char.isDigit then some (natOfDigits t) else none

/-- Python `int(part.split()[0])`: first whitespace-separated token parsed as
an integer; an empty token list (IndexError) or a non-numeric token raises. -/
def pyIntFirstTok (q : List Char) : Option Nat :=
  match pyWords q with
  | [] => none
  | t :: _ => pyInt t

/-- Stable insertion step for a descending sort: `x` goes in front of the
first element whose key is not larger, so elements inserted earlier from the
original order stay in front of later equal-key elements. -/
def insertDesc {α : Type} (key : α → Nat) (x : α) : List α → List α
  | [] => [x]
  | y :: ys => if key x < key y then y :: insertDesc key x ys else x :: y :: ys

/-- Python `list.sort(key=..., reverse=True)` is a stable descending sort;
embedded as stable insertion sort. -/
def stableSortDesc {α : Type} (key : α → Nat) : List α → List α
  | [] => []
  | x :: xs => insertDesc key x (stableSortDesc key xs)

/-- The `test_results` record of `evaluate_implementation`. -/
structure TestResults where
  command : String
  success : Bool
  output : String
  err : String
deriving DecidableEq

/-- The evaluation record built by `evaluate_implementation`
(`mcp_worktree_voting.py` lines 104-175).  `err` is the presence of the
`"error"` key that the outer `except` (lines 172-174) adds when the `try`
block raises; the record is returned — and cached and ranked by callers —
in that case too, with whatever fields were already assigned and the
initial `quality_score = 0`.  The exception message itself is an external
string and is not modelled. -/
structure Evaluation where
  has_changes : Bool
  files_changed : Nat
  lines_added : Nat
  lines_removed : Nat
  test_results : Option TestResults
  quality_score : Nat
  err : Bool
deriving DecidableEq

/-- The three counters parsed from a `git diff --stat` summary line. -/
structure DiffStat where
  files : Nat
  added : Nat
  removed : Nat
deriving DecidableEq

/-- Destructive git commands issued by finalize/cleanup, recorded as an
effect trace. -/
inductive GitCmd where
  | checkout (branch : String)
  | merge (branch : String)
  | worktreeRemove (path : String)
  | branchDelete (branch : String)
deriving DecidableEq

/-- Outcome of `finalize_best`. -/
inductive FinalizeResult where
  | sessionNotFound
  | worktreeNotFound
  | mergeError
  | finalized (winner : String) (cleaned : List String)
deriving DecidableEq

/-- Outcome of `cleanup_session`. -/
inductive CleanupResult where
  | sessionNotFound
  | incomplete (ids : List String)
  | cleaned
deriving DecidableEq

namespace Voting

/-- `WorktreeSession` of `mcp_worktree_voting.py` (lines 22-45): the dicts
are insertion-ordered association lists keyed by variant id. -/
structure Session where
  session_id : String
  task : String
  num_variants : Nat
  base_branch : String
  worktrees : List (String × String)
  implementations : List (String × Bool)
  evaluations : List (String × Evaluation)
  execution_results : List (String × String)
deriving DecidableEq

/-- The global `sessions` dict. -/
abbrev Registry := List (String × Session)

/-- The branch-name scheme of `mcp_worktree_voting.py`:
`f"voting-{session_id}-{variant_id}"`, used identically at provisioning
(line 228), in info (line 326), in finalize (lines 491, 514) and in
cleanup (line 558). -/
def branchName (sid wid : String) : String :=
  "voting-" ++ sid ++ "-" ++ wid

/-- One comma-separated piece of the diff-stat summary line
(`mcp_worktree_voting.py` lines 131-139): strip it, then update the counter
named in it; `int` on a malformed token raises, reported as `none`. -/
def parsePart (st : DiffStat) (p : List Char) : Option DiffStat :=
  let q := pyStrip p
  if containsSeq "file".toList q then
    (pyIntFirstTok q).map (fun n => { st with files := n })
  else if containsSeq "insertion".toList q then
    (pyIntFirstTok q).map (fun n => { st with added := n })
  else if containsSeq "deletion".toList q then
    (pyIntFirstTok q).map (fun n => { st with removed := n })
  else some st

/-- The loop over the comma-separated pieces (lines 131-139): a part whose
`int()` raises aborts the whole `try` block, so the counters keep the
values already assigned by the earlier parts; the Bool records whether the
loop finished without raising. -/
def parseParts : DiffStat → List (List Char) → DiffStat × Bool
  | st, [] => (st, true)
  | st, p :: rest =>
    match parsePart st p with
    | some st' => parseParts st' rest
    | none => (st, false)

/-- Parsing of the diff-stat summary line (lines 129-139): only attempted if
the line mentions `file`; otherwise all counters stay zero and nothing can
raise. -/
def parseStatLine (line : List Char) : DiffStat × Bool :=
  if containsSeq "file".toList line then
    parseParts { files := 0, added := 0, removed := 0 } (pySplit ',' line)
  else
    ({ files := 0, added := 0, removed := 0 }, true)

/-- Lines 126-129: strip the diff output, split it into lines, and parse the
last one as the summary. -/
def parseDiffStat (stdout : String) : DiffStat × Bool :=
  let lines := pySplit '\n' (pyStrip stdout.toList)
  parseStatLine (lines.getLastD [])

/-- Python truthiness of
`evaluation["test_results"] and evaluation["test_results"]["success"]`
(line 165): an absent (`None`) test record fails the test. -/
def testsPassed : Option TestResults → Bool
  | some t => t.success
  | none => false

/-- `evaluate_implementation` (lines 104-175).  The external world enters as
arguments: `diffOk` is `git diff` exiting 0, `diffStdout` its captured
output, `test_results` the outcome of the test-command discovery loop
(lines 142-159, whose own timeout and missing-tool exceptions are caught
inside the loop and mean skipping a candidate; the subprocess calls
themselves are the VCS/test capabilities and are assumed to return).  When
the summary parse raises, the outer `except` (lines 172-174) returns the
partially filled record: `has_changes` and the counters assigned so far
stand, the test loop never ran, the score keeps its initial 0, and the
`"error"` key is set. -/
def evaluate_implementation (diffOk : Bool) (diffStdout : String)
    (test_results : Option TestResults) : Evaluation :=
  let hasChanges := diffOk && !(diffStdout == "")
  let pr := if hasChanges then parseDiffStat diffStdout
            else ({ files := 0, added := 0, removed := 0 }, true)
  if pr.2 then
    { has_changes := hasChanges, files_changed := pr.1.files, lines_added := pr.1.added,
      lines_removed := pr.1.removed, test_results := test_results,
      quality_score :=
        (if hasChanges then 30 else 0) + (if testsPassed test_results then 50 else 0) +
        (if pr.1.files > 0 then min (pr.1.files * 5) 20 else 0),
      err := false }
  else
    { has_changes := hasChanges, files_changed := pr.1.files, lines_added := pr.1.added,
      lines_removed := pr.1.removed, test_results := none, quality_score := 0, err := true }

/-- One element of the list built by `evaluate_implementations`
(lines 384-400). -/
structure EvalEntry where
  worktree_id : String
  completed : Bool
  evaluation : Option Evaluation
deriving DecidableEq

/-- The sort key `x["evaluation"].get("quality_score", 0)` (line 403): an
absent evaluation (the empty dict) scores 0. -/
def scoreOf : Option Evaluation → Nat
  | none => 0
  | some e => e.quality_score

/-- The gathering loop of `evaluate_implementations` (lines 384-400): one
element per variant in creation order; a completed variant with no cached
evaluation is evaluated now (`ef` is the outcome of `evaluate_implementation`
on a working-copy path) and the result is cached. -/
def buildEntries (ef : String → Evaluation) (impls : List (String × Bool)) :
    List (String × String) → List (String × Evaluation) →
    List EvalEntry × List (String × Evaluation)
  | [], evals => ([], evals)
  | (wid, path) :: rest, evals =>
    let completed := (alookup impls wid).getD false
    match alookup evals wid with
    | some e =>
      let r := buildEntries ef impls rest evals
      (⟨wid, completed, some e⟩ :: r.1, r.2)
    | none =>
      if completed then
        let e := ef path
        let r := buildEntries ef impls rest (dictSet evals wid e)
        (⟨wid, completed, some e⟩ :: r.1, r.2)
      else
        let r := buildEntries ef impls rest evals
        (⟨wid, completed, none⟩ :: r.1, r.2)

/-- `evaluate_implementations` (lines 371-434): build one element per variant,
lazily evaluating completed ones, then stable-sort by quality score,
descending (line 403).  The rank numbers and summary it also emits are
positional decoration of the sorted list and are omitted. -/
def evaluate_implementations (ef : String → Evaluation) (R : Registry) (sid : String) :
    Option (List EvalEntry × Registry) :=
  match alookup R sid with
  | none => none
  | some s =>
    let r := buildEntries ef s.implementations s.worktrees s.evaluations
    some (stableSortDesc (fun en => scoreOf en.evaluation) r.1,
      dictSet R sid { s with evaluations := r.2 })

/-- The candidate loop of `auto_select_best` (lines 451-459): only variants
marked complete are collected, with their cached or freshly computed
evaluation. -/
def buildCandidates (ef : String → Evaluation) (impls : List (String × Bool)) :
    List (String × String) → List (String × Evaluation) →
    List (String × Evaluation) × List (String × Evaluation)
  | [], evals => ([], evals)
  | (wid, path) :: rest, evals =>
    if (alookup impls wid).getD false then
      match alookup evals wid with
      | some e =>
        let r := buildCandidates ef impls rest evals
        ((wid, e) :: r.1, r.2)
      | none =>
        let e := ef path
        let r := buildCandidates ef impls rest (dictSet evals wid e)
        ((wid, e) :: r.1, r.2)
    else
      buildCandidates ef impls rest evals

/-- Outcome of `auto_select_best`. -/
inductive AutoSelectResult where
  | sessionNotFound
  | noCompleted
  | fin (r : FinalizeResult)
deriving DecidableEq

/-- `finalize_best` (lines 476-529).  `mergeOk` is the exit status of the
`git merge` subprocess; the `checkout` and `merge` commands are issued before
the status is known.  A failing merge returns before any cleanup.  The
registry is returned unchanged — the function never writes session state. -/
def finalize_best (R : Registry) (sid wid : String) (merge_to_main mergeOk : Bool) :
    FinalizeResult × Registry × List GitCmd :=
  match alookup R sid with
  | none => (.sessionNotFound, R, [])
  | some s =>
    match alookup s.worktrees wid with
    | none => (.worktreeNotFound, R, [])
    | some _ =>
      let pre : List GitCmd :=
        if merge_to_main then [.checkout s.base_branch, .merge (branchName sid wid)] else []
      if merge_to_main && !mergeOk then (.mergeError, R, pre)
      else
        let losers := s.worktrees.filter (fun wp => wp.1 != wid)
        (.finalized wid (losers.map Prod.fst), R,
          pre ++ losers.flatMap (fun wp =>
            [.worktreeRemove wp.2, .branchDelete (branchName sid wp.1)]))

/-- `auto_select_best` (lines 437-472): rank the completed variants, then
delegate to `finalize_best` on the top one.  The source checks emptiness
before sorting; the sort maps empty to empty, so matching on the sorted list
is the same test. -/
def auto_select_best (ef : String → Evaluation) (R : Registry) (sid : String)
    (merge_to_main mergeOk : Bool) : AutoSelectResult × Registry × List GitCmd :=
  match alookup R sid with
  | none => (.sessionNotFound, R, [])
  | some s =>
    let c := buildCandidates ef s.implementations s.worktrees s.evaluations
    let R1 := dictSet R sid { s with evaluations := c.2 }
    match stableSortDesc (fun c => c.2.quality_score) c.1 with
    | [] => (.noCompleted, R1, [])
    | best :: _ =>
      let f := finalize_best R1 sid best.1 merge_to_main mergeOk
      (.fin f.1, f.2.1, f.2.2)

/-- `cleanup_session` (lines 532-570): without `force`, refuse when any
variant is still pending, reporting their ids and changing nothing;
otherwise destroy every worktree and branch and deregister the session. -/
def cleanup_session (R : Registry) (sid : String) (force : Bool) :
    CleanupResult × Registry × List GitCmd :=
  match alookup R sid with
  | none => (.sessionNotFound, R, [])
  | some s =>
    let incomplete := (s.implementations.filter (fun p => !p.2)).map Prod.fst
    if !force && !incomplete.isEmpty then (.incomplete incomplete, R, [])
    else
      (.cleaned, removeKey R sid,
        s.worktrees.flatMap (fun wp =>
          [.worktreeRemove wp.2, .branchDelete (branchName sid wp.1)]))

end Voting

namespace Workflows

/-- The task slug (`worktree_workflows.py` lines 39 and 452):
`''.join(c for c in task[:20] if c.isalnum() or c == ' ').replace(' ', '-').lower()`. -/
def taskSlug (task : String) : String :=
  String.mk ((((task.toList.take 20).filter (fun c => c.isAlphanum || c == ' ')).map
    (fun c => if c == ' ' then '-' else c)).map Char.toLower)

/-- `WorktreeSession` of `worktree_workflows.py` (lines 24-53), which also
stores the task slug for branch naming. -/
structure Session where
  session_id : String
  task : String
  num_variants : Nat
  base_branch : String
  task_slug : String
  worktrees : List (String × String)
  implementations : List (String × Bool)
  evaluations : List (String × Evaluation)
  execution_results : List (String × String)
deriving DecidableEq

/-- The global `sessions` dict of `worktree_workflows.py`. -/
abbrev Registry := List (String × Session)

/-- The slug-qualified branch scheme: `WorktreeSession._get_branch_name`
(line 53), identical to the provisioning f-string (line 456). -/
def sessionBranchName (sid slug wid : String) : String :=
  "voting-" ++ sid ++ "-" ++ slug ++ "-" ++ wid

/-- The branch name created at provisioning (`create_voting_worktrees`
lines 452-456): a pure function of session id, task text and variant id. -/
def provisionBranchName (sid task wid : String) : String :=
  sessionBranchName sid (taskSlug task) wid

/-- The module-level `_get_branch_name` (lines 56-61): the session's
slug-qualified scheme when the session is registered, otherwise a slugless
fallback. -/
def get_branch_name (R : Registry) (sid wid : String) : String :=
  match alookup R sid with
  | some s => sessionBranchName sid s.task_slug wid
  | none => "voting-" ++ sid ++ "-" ++ wid

/-- The log-completion sweep shared by `monitor_voting_session`
(lines 297-301) and `get_worktree_info` (lines 557-560): every variant not
yet marked complete whose `execution.log` contains the completion sentinel
(the oracle `logC` applied to its path, the outcome of
`check_log_completion`) is flipped to complete. -/
def updateCompletions (logC : String → Bool) (s : Session) : Session :=
  { s with implementations :=
      s.worktrees.foldl (fun impls wp =>
        if !(alookup impls wp.1).getD false && logC wp.2 then dictSet impls wp.1 true
        else impls) s.implementations }

/-- One iteration of the `monitor_voting_session` poll loop while its session
is registered (lines 293-327): sweep the log completions into the session.
The all-complete branch only reads state, calls the read-only candidate
presentation and stops the loop. -/
def monitorTick (logC : String → Bool) (R : Registry) (sid : String) : Registry :=
  match alookup R sid with
  | none => R
  | some s => dictSet R sid (updateCompletions logC s)

/-- Outcome of `mark_implementation_complete`. -/
inductive MarkResult where
  | sessionNotFound
  | worktreeNotFound
  | marked (wid : String)
deriving DecidableEq

/-- `mark_implementation_complete` (lines 592-614): the explicit completion
signal; it only ever writes `True`. -/
def mark_implementation_complete (R : Registry) (sid wid : String) : MarkResult × Registry :=
  match alookup R sid with
  | none => (.sessionNotFound, R)
  | some s =>
    match alookup s.worktrees wid with
    | none => (.worktreeNotFound, R)
    | some _ =>
      (.marked wid, dictSet R sid { s with implementations := dictSet s.implementations wid true })

/-- One variant's record in the `get_worktree_info` report. -/
structure InfoEntry where
  id : String
  path : String
  completed : Bool
  log_completion : Bool
  branch : String
deriving DecidableEq

/-- Outcome of `get_worktree_info`. -/
inductive InfoResult where
  | sessionNotFound
  | worktreeNotFound
  | one (e : InfoEntry)
  | all (es : List InfoEntry)
deriving DecidableEq

/-- `get_worktree_info` (lines 545-589): the query first sweeps log
completions into the session — a write to the registry — and only then
builds the report from the updated state. -/
def get_worktree_info (logC : String → Bool) (R : Registry) (sid : String)
    (wid? : Option String) : InfoResult × Registry :=
  match alookup R sid with
  | none => (.sessionNotFound, R)
  | some s =>
    let s' := updateCompletions logC s
    let R' := dictSet R sid s'
    match wid? with
    | some wid =>
      match alookup s'.worktrees wid with
      | none => (.worktreeNotFound, R')
      | some path =>
        (.one ⟨wid, path, (alookup s'.implementations wid).getD false, logC path,
          sessionBranchName sid s'.task_slug wid⟩, R')
    | none =>
      (.all (s'.worktrees.map (fun wp =>
        ⟨wp.1, wp.2, (alookup s'.implementations wp.1).getD false, logC wp.2,
         sessionBranchName sid s'.task_slug wp.1⟩)), R')

/-- `evaluate_implementations_with_claude` / `present_top_candidates`
(lines 234-286, 617-692): gather the completed variants' data for evaluation.
Of the gathered data only the variant ids matter to the lifecycle claims (the
diffs, file contents and logs are external reads); the registry is returned
unchanged because the source only reads session state here. -/
def evaluate_implementations_with_claude (R : Registry) (sid : String) :
    Option (List String) × Registry :=
  ((alookup R sid).map (fun s =>
    (s.worktrees.filter (fun wp => (alookup s.implementations wp.1).getD false)).map Prod.fst), R)

/-- `finalize_best` of `worktree_workflows.py` (lines 696-749): identical to
the voting variant except that branch names are recomputed through the
module-level `_get_branch_name` against the live registry. -/
def finalize_best (R : Registry) (sid wid : String) (merge_to_main mergeOk : Bool) :
    FinalizeResult × Registry × List GitCmd :=
  match alookup R sid with
  | none => (.sessionNotFound, R, [])
  | some s =>
    match alookup s.worktrees wid with
    | none => (.worktreeNotFound, R, [])
    | some _ =>
      let pre : List GitCmd :=
        if merge_to_main then [.checkout s.base_branch, .merge (get_branch_name R sid wid)] else []
      if merge_to_main && !mergeOk then (.mergeError, R, pre)
      else
        let losers := s.worktrees.filter (fun wp => wp.1 != wid)
        (.finalized wid (losers.map Prod.fst), R,
          pre ++ losers.flatMap (fun wp =>
            [.worktreeRemove wp.2, .branchDelete (get_branch_name R sid wp.1)]))

/-- `cleanup_session` of `worktree_workflows.py` (lines 752-790): branch
names recomputed through `_get_branch_name` before the session is deleted,
so against a registry that still holds it. -/
def cleanup_session (R : Registry) (sid : String) (force : Bool) :
    CleanupResult × Registry × List GitCmd :=
  match alookup R sid with
  | none => (.sessionNotFound, R, [])
  | some s =>
    let incomplete := (s.implementations.filter (fun p => !p.2)).map Prod.fst
    if !force && !incomplete.isEmpty then (.incomplete incomplete, R, [])
    else
      (.cleaned, removeKey R sid,
        s.worktrees.flatMap (fun wp =>
          [.worktreeRemove wp.2, .branchDelete (get_branch_name R sid wp.1)]))

/-- The operations of `worktree_workflows.py` that can touch a registered
session after provisioning, for the completion-monotonicity claim. -/
inductive WOp where
  | tick (logC : String → Bool) (sid : String)
  | mark (sid wid : String)
  | info (logC : String → Bool) (sid : String) (wid? : Option String)
  | evalImpls (sid : String)
  | fin (sid wid : String) (mtm ok : Bool)
  | cleanup (sid : String) (force : Bool)

/-- The registry transition of each operation. -/
def applyWOp : WOp → Registry → Registry
  | .tick logC sid, R => monitorTick logC R sid
  | .mark sid wid, R => (mark_implementation_complete R sid wid).2
  | .info logC sid w, R => (get_worktree_info logC R sid w).2
  | .evalImpls sid, R => (evaluate_implementations_with_claude R sid).2
  | .fin sid wid mtm ok, R => (finalize_best R sid wid mtm ok).2.1
  | .cleanup sid f, R => (cleanup_session R sid f).2.1

end Workflows

/-- A concrete evaluation record (score 35) for witnesses. -/
def evalA : Evaluation :=
  { has_changes := true, files_changed := 1, lines_added := 1, lines_removed := 0,
    test_results := none, quality_score := 35, err := false }

/-- A concrete evaluation record (score 40) for witnesses. -/
def evalB : Evaluation :=
  { has_changes := true, files_changed := 2, lines_added := 3, lines_removed := 1,
    test_results := none, quality_score := 40, err := false }

/-- A concrete evaluation oracle for witnesses. -/
def efA : String → Evaluation := fun _ => evalA

/-- The record `evaluate_implementation` produces on the first scenario
diff-stat line of the spec. -/
def evalC28 : Evaluation :=
  { has_changes := true, files_changed := 2, lines_added := 10, lines_removed := 3,
    test_results := none, quality_score := 40, err := false }

/-- The second scenario diff-stat summary line of the spec. -/
def lineC8 : List Char := "1 file changed, 5 deletions(-)".toList

/-- Its expected parse. -/
def dC8 : DiffStat := { files := 1, added := 0, removed := 5 }

/-- A concrete voting session: variant-1 still pending, variant-2 completed
with a cached evaluation. -/
def sessA : Voting.Session :=
  { session_id := "s1", task := "add logging", num_variants := 2, base_branch := "main",
    worktrees := [("variant-1", "p1"), ("variant-2", "p2")],
    implementations := [("variant-1", false), ("variant-2", true)],
    evaluations := [("variant-2", evalB)], execution_results := [] }

/-- A registry holding `sessA`. -/
def regA : Voting.Registry := [("s1", sessA)]

/-- A concrete workflows session: variant-1 completed, variant-2 pending. -/
def sessW : Workflows.Session :=
  { session_id := "abc", task := "add logging", num_variants := 2, base_branch := "main",
    task_slug := "add-logging",
    worktrees := [("variant-1", "q1"), ("variant-2", "q2")],
    implementations := [("variant-1", true), ("variant-2", false)],
    evaluations := [], execution_results := [] }

/-- A registry holding `sessW`. -/
def regW : Workflows.Registry := [("abc", sessW)]

/-- `sessW` after the log sweep has flipped variant-2 to complete. -/
def sessW2 : Workflows.Session :=
  { sessW with implementations := [("variant-1", true), ("variant-2", true)] }

/-- A log oracle: only the working copy at path q2 has the completion
sentinel in its `execution.log`. -/
def logA : String → Bool := fun p => p == "q2"

/-- The ranking behaviour claimed for a registered session, stated over the
embedded operations: the candidate list of `auto_select_best` (sorted with
the source's key) holds exactly the completed variants, with the cached or
lazily computed evaluation, descending by quality score, ties in creation
order; `evaluate_implementations` returns an entry for every variant of the
session (completed flags as recorded, pending ones evaluated only from
cache), in the same descending, creation-order-stable order. -/
def RankingSpec (ef : String → Evaluation) (R : Voting.Registry) (sid : String)
    (s : Voting.Session) : Prop :=
  (∀ c ∈ stableSortDesc (fun c => c.2.quality_score)
      (Voting.buildCandidates ef s.implementations s.worktrees s.evaluations).1,
    (alookup s.implementations c.1).getD false = true) ∧
  (∀ wid path, alookup s.worktrees wid = some path →
    (alookup s.implementations wid).getD false = true →
    (wid, (alookup s.evaluations wid).getD (ef path)) ∈
      stableSortDesc (fun c => c.2.quality_score)
        (Voting.buildCandidates ef s.implementations s.worktrees s.evaluations).1) ∧
  (stableSortDesc (fun c => c.2.quality_score)
      (Voting.buildCandidates ef s.implementations s.worktrees s.evaluations).1).Pairwise
    (fun a b => b.2.quality_score ≤ a.2.quality_score) ∧
  (stableSortDesc (fun c => c.2.quality_score)
      (Voting.buildCandidates ef s.implementations s.worktrees s.evaluations).1).Pairwise
    (fun a b => a.2.quality_score = b.2.quality_score →
      idxOf a.1 (s.worktrees.map Prod.fst) < idxOf b.1 (s.worktrees.map Prod.fst)) ∧
  (∀ entries R2, Voting.evaluate_implementations ef R sid = some (entries, R2) →
    (entries.map (fun en => en.worktree_id)).Perm (s.worktrees.map Prod.fst) ∧
    (∀ en ∈ entries, en.completed = (alookup s.implementations en.worktree_id).getD false) ∧
    (∀ wid path, alookup s.worktrees wid = some path →
      (⟨wid, (alookup s.implementations wid).getD false,
        if (alookup s.implementations wid).getD false then
          some ((alookup s.evaluations wid).getD (ef path))
        else alookup s.evaluations wid⟩ : Voting.EvalEntry) ∈ entries) ∧
    entries.Pairwise (fun a b => Voting.scoreOf b.evaluation ≤ Voting.scoreOf a.evaluation) ∧
    entries.Pairwise (fun a b => Voting.scoreOf a.evaluation = Voting.scoreOf b.evaluation →
      idxOf a.worktree_id (s.worktrees.map Prod.fst) <
        idxOf b.worktree_id (s.worktrees.map Prod.fst)))

/-! ### Helper lemmas -/

theorem mem_insertDesc {α : Type} (key : α → Nat) (x : α) (l : List α) (a : α) :
    a ∈ insertDesc key x l ↔ a = x ∨ a ∈ l := by
  induction l with
  | nil => simp [insertDesc]
  | cons y ys ih =>
    by_cases h : key x < key y
    · rw [insertDesc, if_pos h]
      simp only [List.mem_cons, ih]
      tauto
    · rw [insertDesc, if_neg h]
      simp [List.mem_cons]

theorem perm_insertDesc {α : Type} (key : α → Nat) (x : α) (l : List α) :
    (insertDesc key x l).Perm (x :: l) := by
  induction l with
  | nil => simp [insertDesc]
  | cons y ys ih =>
    by_cases h : key x < key y
    · simp only [insertDesc, if_pos h]
      exact (ih.cons y).trans (List.Perm.swap x y ys)
    · simp [insertDesc, if_neg h]

theorem perm_stableSortDesc {α : Type} (key : α → Nat) (l : List α) :
    (stableSortDesc key l).Perm l := by
  induction l with
  | nil => simp [stableSortDesc]
  | cons x xs ih =>
    exact (perm_insertDesc key x (stableSortDesc key xs)).trans (ih.cons x)

theorem mem_stableSortDesc {α : Type} (key : α → Nat) (l : List α) (a : α) :
    a ∈ stableSortDesc key l ↔ a ∈ l :=
  (perm_stableSortDesc key l).mem_iff

theorem sorted_insertDesc {α : Type} (key : α → Nat) (x : α) (l : List α)
    (h : l.Pairwise (fun a b => key b ≤ key a)) :
    (insertDesc key x l).Pairwise (fun a b => key b ≤ key a) := by
  induction l with
  | nil => simp [insertDesc]
  | cons y ys ih =>
    rw [List.pairwise_cons] at h
    by_cases hk : key x < key y
    · simp only [insertDesc, if_pos hk, List.pairwise_cons]
      refine ⟨fun z hz => ?_, ih h.2⟩
      rcases (mem_insertDesc key x ys z).mp hz with rfl | hzys
      · exact Nat.le_of_lt hk
      · exact h.1 z hzys
    · simp only [insertDesc, if_neg hk, List.pairwise_cons]
      refine ⟨fun z hz => ?_, ?_⟩
      · rcases List.mem_cons.mp hz with rfl | hzys
        · exact Nat.le_of_not_lt hk
        · exact Nat.le_trans (h.1 z hzys) (Nat.le_of_not_lt hk)
      · exact h

theorem sorted_stableSortDesc {α : Type} (key : α → Nat) (l : List α) :
    (stableSortDesc key l).Pairwise (fun a b => key b ≤ key a) := by
  induction l with
  | nil => simp [stableSortDesc]
  | cons x xs ih => exact sorted_insertDesc key x _ ih

theorem pairwise_disj_insertDesc {α : Type} (key : α → Nat) (Q : α → α → Prop)
    (x : α) (l : List α) (hQ : ∀ y ∈ l, Q x y)
    (h : l.Pairwise (fun a b => key b < key a ∨ Q a b)) :
    (insertDesc key x l).Pairwise (fun a b => key b < key a ∨ Q a b) := by
  induction l with
  | nil => simp [insertDesc]
  | cons y ys ih =>
    rw [List.pairwise_cons] at h
    by_cases hk : key x < key y
    · simp only [insertDesc, if_pos hk, List.pairwise_cons]
      refine ⟨fun z hz => ?_, ih (fun z hz => hQ z (List.mem_cons_of_mem y hz)) h.2⟩
      rcases (mem_insertDesc key x ys z).mp hz with rfl | hzys
      · exact Or.inl hk
      · exact h.1 z hzys
    · simp only [insertDesc, if_neg hk, List.pairwise_cons]
      exact ⟨fun z hz => Or.inr (hQ z hz), h⟩

theorem pairwise_disj_stableSortDesc {α : Type} (key : α → Nat) (Q : α → α → Prop)
    (l : List α) (h : l.Pairwise Q) :
    (stableSortDesc key l).Pairwise (fun a b => key b < key a ∨ Q a b) := by
  induction l with
  | nil => simp [stableSortDesc]
  | cons x xs ih =>
    rw [List.pairwise_cons] at h
    refine pairwise_disj_insertDesc key Q x _ (fun y hy => ?_) (ih h.2)
    exact h.1 y ((mem_stableSortDesc key xs y).mp hy)

theorem stable_tie_stableSortDesc {α : Type} (key : α → Nat) (Q : α → α → Prop)
    (l : List α) (h : l.Pairwise Q) :
    (stableSortDesc key l).Pairwise (fun a b => key a = key b → Q a b) := by
  have h1 := sorted_stableSortDesc key l
  have h2 := pairwise_disj_stableSortDesc key Q l h
  refine (h1.and h2).imp ?_
  rintro a b ⟨hle, hlt | hq⟩ heq
  · omega
  · exact hq

theorem alookup_dictSet {α : Type} (m : List (String × α)) (k : String) (v : α) (k' : String) :
    alookup (dictSet m k v) k' = if k = k' then some v else alookup m k' := by
  induction m with
  | nil => simp [alookup, dictSet]
  | cons p rest ih =>
    obtain ⟨a, b⟩ := p
    by_cases hak : a = k
    · subst hak
      by_cases hk' : a = k'
      · simp [dictSet, alookup, hk']
      · simp [dictSet, alookup, hk']
    · by_cases hak' : a = k'
      · subst hak'
        have hka : ¬k = a := fun hh => hak hh.symm
        simp [dictSet, hak, alookup, hka]
      · simp [dictSet, hak, alookup, hak', ih]

theorem alookup_removeKey_ne {α : Type} (m : List (String × α)) (k k' : String) (h : k ≠ k') :
    alookup (removeKey m k) k' = alookup m k' := by
  induction m with
  | nil => simp [removeKey]
  | cons p rest ih =>
    obtain ⟨a, b⟩ := p
    by_cases hak : a = k
    · subst hak
      simp [removeKey, alookup, h]
    · simp [removeKey, hak, alookup, ih]

theorem alookup_none_of_not_mem_keys {α : Type} (m : List (String × α)) (k : String)
    (h : k ∉ m.map Prod.fst) : alookup m k = none := by
  induction m with
  | nil => rfl
  | cons p rest ih =>
    obtain ⟨a, b⟩ := p
    simp only [List.map_cons, List.mem_cons] at h
    push_neg at h
    have hka : ¬a = k := fun hh => h.1 hh.symm
    simp [alookup, hka, ih h.2]

theorem alookup_removeKey_self {α : Type} (m : List (String × α)) (k : String)
    (h : (m.map Prod.fst).Nodup) : alookup (removeKey m k) k = none := by
  induction m with
  | nil => rfl
  | cons p rest ih =>
    obtain ⟨a, b⟩ := p
    simp only [List.map_cons, List.nodup_cons] at h
    by_cases hak : a = k
    · subst hak
      simpa [removeKey] using alookup_none_of_not_mem_keys rest a h.1
    · simp [removeKey, hak, alookup, ih h.2]

theorem mem_of_alookup {α : Type} (m : List (String × α)) (k : String) (v : α)
    (h : alookup m k = some v) : (k, v) ∈ m := by
  induction m with
  | nil => simp [alookup] at h
  | cons p rest ih =>
    obtain ⟨a, b⟩ := p
    by_cases hak : a = k
    · subst hak
      have hbv : b = v := Option.some.inj (by simpa [alookup] using h)
      subst hbv
      exact List.mem_cons_self _ _
    · simp only [alookup, if_neg hak] at h
      exact List.mem_cons_of_mem _ (ih h)

theorem pairwise_idxOf_of_nodup (keys : List String) (h : keys.Nodup) :
    keys.Pairwise (fun a b => idxOf a keys < idxOf b keys) := by
  induction keys with
  | nil => simp
  | cons x xs ih =>
    rw [List.nodup_cons] at h
    rw [List.pairwise_cons]
    constructor
    · intro b hb
      have hbx : ¬(x = b) := fun hh => h.1 (hh ▸ hb)
      have hxx : idxOf x (x :: xs) = 0 := by simp [idxOf]
      have : idxOf b (x :: xs) = idxOf b xs + 1 := by simp [idxOf, hbx]
      omega
    · refine (ih h.2).imp_of_mem ?_
      intro a b ha hb hab
      have hxa : ¬(x = a) := fun hh => h.1 (hh ▸ ha)
      have hxb : ¬(x = b) := fun hh => h.1 (hh ▸ hb)
      simp only [idxOf, if_neg hxa, if_neg hxb]
      omega

theorem strAppendData (s t : String) : (s ++ t).data = s.data ++ t.data := by
  cases s
  cases t
  rfl

theorem strExt {a b : String} (h : a.data = b.data) : a = b := by
  cases a
  cases b
  exact congrArg String.mk h

theorem listAppendCancel {α : Type} : ∀ (a b c : List α), a ++ b = a ++ c → b = c := by
  intro a
  induction a with
  | nil => intro b c h; simpa using h
  | cons x xs ih =>
    intro b c h
    simp only [List.cons_append, List.cons.injEq] at h
    exact ih b c h.2

theorem votingBranchName_inj (sid w v : String)
    (h : Voting.branchName sid w = Voting.branchName sid v) : w = v := by
  unfold Voting.branchName at h
  have hd := congrArg String.data h
  simp only [strAppendData, List.append_assoc] at hd
  exact strExt (listAppendCancel _ _ _ (listAppendCancel _ _ _ (listAppendCancel _ _ _ hd)))

theorem seqStarts_eq (n : List Char) : ∀ l, seqStarts n l = true → ∃ t, l = n ++ t := by
  induction n with
  | nil => intro l _; exact ⟨l, rfl⟩
  | cons a as ih =>
    intro l h
    cases l with
    | nil => simp [seqStarts] at h
    | cons b bs =>
      simp only [seqStarts, Bool.and_eq_true, decide_eq_true_eq] at h
      obtain ⟨t, ht⟩ := ih bs h.2
      exact ⟨t, by simp [h.1, ht]⟩

theorem containsSeq_seqIn (n : List Char) : ∀ l, containsSeq n l = true → seqIn n l := by
  intro l
  induction l with
  | nil =>
    intro h
    simp only [containsSeq, List.isEmpty_iff] at h
    exact ⟨[], [], by simp [h]⟩
  | cons c rest ih =>
    intro h
    simp only [containsSeq, Bool.or_eq_true] at h
    rcases h with h | h
    · obtain ⟨t, ht⟩ := seqStarts_eq n _ h
      exact ⟨[], t, by simp [ht]⟩
    · obtain ⟨s, t, hst⟩ := ih h
      exact ⟨c :: s, t, by simp [hst]⟩

theorem seqIn_trans {a b c : List Char} (h1 : seqIn a b) (h2 : seqIn b c) : seqIn a c := by
  obtain ⟨s1, t1, h1⟩ := h1
  obtain ⟨s2, t2, h2⟩ := h2
  exact ⟨s2 ++ s1, t1 ++ t2, by simp [h2, h1, List.append_assoc]⟩

theorem dropWhile_seq (p : Char → Bool) : ∀ l : List Char, ∃ s, l = s ++ l.dropWhile p := by
  intro l
  induction l with
  | nil => exact ⟨[], rfl⟩
  | cons x xs ih =>
    by_cases h : p x
    · obtain ⟨s, hs⟩ := ih
      exact ⟨x :: s, by simpa [List.dropWhile_cons, h] using congrArg (x :: ·) hs⟩
    · exact ⟨[], by simp [List.dropWhile_cons, h]⟩

theorem pyStrip_seqIn (l : List Char) : seqIn (pyStrip l) l := by
  obtain ⟨u, hu⟩ := dropWhile_seq Char.isWhitespace l
  obtain ⟨v, hv⟩ := dropWhile_seq Char.isWhitespace (l.dropWhile Char.isWhitespace).reverse
  have hm : l.dropWhile Char.isWhitespace = pyStrip l ++ v.reverse := by
    have h2 := congrArg List.reverse hv
    simpa [pyStrip, List.reverse_append] using h2
  refine ⟨u, v.reverse, ?_⟩
  conv_lhs => rw [hu]
  rw [hm]
  simp [List.append_assoc]

theorem mem_splitPAux_seqIn (p : Char → Bool) :
    ∀ (l acc q : List Char), q ∈ splitPAux p l acc → seqIn q (acc.reverse ++ l) := by
  intro l
  induction l with
  | nil =>
    intro acc q h
    simp only [splitPAux, List.mem_singleton] at h
    exact ⟨[], [], by simp [h]⟩
  | cons x xs ih =>
    intro acc q h
    by_cases hx : p x
    · simp only [splitPAux, if_pos hx, List.mem_cons] at h
      rcases h with rfl | h
      · exact ⟨[], x :: xs, by simp⟩
      · obtain ⟨s, t, hst⟩ := ih [] q h
        simp only [List.reverse_nil, List.nil_append] at hst
        exact ⟨acc.reverse ++ x :: s, t, by simp [hst, List.append_assoc]⟩
    · simp only [splitPAux, if_neg hx] at h
      have := ih (x :: acc) q h
      simpa [List.append_assoc] using this

theorem mem_pySplit_seqIn (c : Char) (l q : List Char) (h : q ∈ pySplit c l) : seqIn q l := by
  have := mem_splitPAux_seqIn (fun x => x = c) l [] q h
  simpa using this

theorem seqStarts_of_eq (n : List Char) : ∀ t, seqStarts n (n ++ t) = true := by
  induction n with
  | nil => intro t; rfl
  | cons a as ih => intro t; simp [seqStarts, ih]

theorem seqIn_containsSeq (n l : List Char) (h : seqIn n l) : containsSeq n l = true := by
  obtain ⟨s, t, rfl⟩ := h
  induction s with
  | nil =>
    rw [List.nil_append]
    cases n with
    | nil =>
      cases t with
      | nil => rfl
      | cons c cs => simp [containsSeq, seqStarts]
    | cons a as =>
      show (seqStarts (a :: as) (a :: (as ++ t)) || containsSeq (a :: as) (as ++ t)) = true
      rw [← List.cons_append, seqStarts_of_eq]
      rfl
  | cons x xs ih =>
    simp only [List.cons_append, containsSeq, Bool.or_eq_true]
    exact Or.inr (by simpa using ih)

theorem parsePart_keeps_added (st : DiffStat) (p : List Char) (d : DiffStat)
    (hni : ¬ containsSeq "insertion".toList (pyStrip p) = true)
    (h : Voting.parsePart st p = some d) : d.added = st.added := by
  simp only [Voting.parsePart] at h
  by_cases hf : containsSeq "file".toList (pyStrip p) = true
  · rw [if_pos hf] at h
    obtain ⟨n, _, rfl⟩ := Option.map_eq_some'.mp h
    rfl
  · rw [if_neg hf, if_neg hni] at h
    by_cases hd : containsSeq "deletion".toList (pyStrip p) = true
    · rw [if_pos hd] at h
      obtain ⟨n, _, rfl⟩ := Option.map_eq_some'.mp h
      rfl
    · rw [if_neg hd] at h
      rw [← Option.some.inj h]

theorem parsePart_keeps_removed (st : DiffStat) (p : List Char) (d : DiffStat)
    (hnd : ¬ containsSeq "deletion".toList (pyStrip p) = true)
    (h : Voting.parsePart st p = some d) : d.removed = st.removed := by
  simp only [Voting.parsePart] at h
  by_cases hf : containsSeq "file".toList (pyStrip p) = true
  · rw [if_pos hf] at h
    obtain ⟨n, _, rfl⟩ := Option.map_eq_some'.mp h
    rfl
  · rw [if_neg hf] at h
    by_cases hi : containsSeq "insertion".toList (pyStrip p) = true
    · rw [if_pos hi] at h
      obtain ⟨n, _, rfl⟩ := Option.map_eq_some'.mp h
      rfl
    · rw [if_neg hi, if_neg hnd] at h
      rw [← Option.some.inj h]

theorem parseParts_keeps_added :
    ∀ (parts : List (List Char)) (st : DiffStat),
      (∀ p ∈ parts, ¬ containsSeq "insertion".toList (pyStrip p) = true) →
      (Voting.parseParts st parts).1.added = st.added := by
  intro parts
  induction parts with
  | nil => intro st _; rfl
  | cons p rest ih =>
    intro st hall
    cases hp : Voting.parsePart st p with
    | none => simp [Voting.parseParts, hp]
    | some st' =>
      have h2 := parsePart_keeps_added st p st' (hall p (List.mem_cons_self _ _)) hp
      have h1 := ih st' (fun q hq => hall q (List.mem_cons_of_mem _ hq))
      simp only [Voting.parseParts, hp]
      omega

theorem parseParts_keeps_removed :
    ∀ (parts : List (List Char)) (st : DiffStat),
      (∀ p ∈ parts, ¬ containsSeq "deletion".toList (pyStrip p) = true) →
      (Voting.parseParts st parts).1.removed = st.removed := by
  intro parts
  induction parts with
  | nil => intro st _; rfl
  | cons p rest ih =>
    intro st hall
    cases hp : Voting.parsePart st p with
    | none => simp [Voting.parseParts, hp]
    | some st' =>
      have h2 := parsePart_keeps_removed st p st' (hall p (List.mem_cons_self _ _)) hp
      have h1 := ih st' (fun q hq => hall q (List.mem_cons_of_mem _ hq))
      simp only [Voting.parseParts, hp]
      omega

theorem parseStatLine_added_zero (line : List Char)
    (hni : ¬ seqIn "insertion".toList line) :
    (Voting.parseStatLine line).1.added = 0 := by
  by_cases hf : containsSeq "file".toList line = true
  · have hall : ∀ p ∈ pySplit ',' line, ¬ containsSeq "insertion".toList (pyStrip p) = true := by
      intro p hp hc
      exact hni (seqIn_trans (containsSeq_seqIn _ _ hc)
        (seqIn_trans (pyStrip_seqIn p) (mem_pySplit_seqIn ',' line p hp)))
    unfold Voting.parseStatLine
    rw [if_pos hf]
    exact parseParts_keeps_added _ _ hall
  · unfold Voting.parseStatLine
    rw [if_neg hf]

theorem parseStatLine_removed_zero (line : List Char)
    (hnd : ¬ seqIn "deletion".toList line) :
    (Voting.parseStatLine line).1.removed = 0 := by
  by_cases hf : containsSeq "file".toList line = true
  · have hall : ∀ p ∈ pySplit ',' line, ¬ containsSeq "deletion".toList (pyStrip p) = true := by
      intro p hp hc
      exact hnd (seqIn_trans (containsSeq_seqIn _ _ hc)
        (seqIn_trans (pyStrip_seqIn p) (mem_pySplit_seqIn ',' line p hp)))
    unfold Voting.parseStatLine
    rw [if_pos hf]
    exact parseParts_keeps_removed _ _ hall
  · unfold Voting.parseStatLine
    rw [if_neg hf]

theorem parseStatLine_no_files (line : List Char) (hnf : ¬ seqIn "file".toList line) :
    Voting.parseStatLine line = ({ files := 0, added := 0, removed := 0 }, true) := by
  have hf : ¬ containsSeq "file".toList line = true := fun hc => hnf (containsSeq_seqIn _ _ hc)
  unfold Voting.parseStatLine
  rw [if_neg hf]

theorem buildEntries_ids (ef : String → Evaluation) (impls : List (String × Bool)) :
    ∀ (wts : List (String × String)) (evals : List (String × Evaluation)),
      (Voting.buildEntries ef impls wts evals).1.map (fun en => en.worktree_id) =
        wts.map Prod.fst := by
  intro wts
  induction wts with
  | nil => intro evals; rfl
  | cons wp rest ih =>
    intro evals
    obtain ⟨wid, path⟩ := wp
    cases hc : alookup evals wid with
    | some e => simp [Voting.buildEntries, hc, ih]
    | none =>
      by_cases hcomp : (alookup impls wid).getD false = true
      · simp [Voting.buildEntries, hc, hcomp, ih]
      · simp [Voting.buildEntries, hc, hcomp, ih]

theorem buildEntries_completed (ef : String → Evaluation) (impls : List (String × Bool)) :
    ∀ (wts : List (String × String)) (evals : List (String × Evaluation)),
      ∀ en ∈ (Voting.buildEntries ef impls wts evals).1,
        en.completed = (alookup impls en.worktree_id).getD false := by
  intro wts
  induction wts with
  | nil => intro evals en h; simp [Voting.buildEntries] at h
  | cons wp rest ih =>
    intro evals en h
    obtain ⟨wid, path⟩ := wp
    cases hc : alookup evals wid with
    | some e =>
      rw [Voting.buildEntries] at h
      rw [hc] at h
      rcases List.mem_cons.mp h with rfl | h2
      · rfl
      · exact ih evals en h2
    | none =>
      rw [Voting.buildEntries] at h
      rw [hc] at h
      by_cases hcomp : (alookup impls wid).getD false = true
      · rw [if_pos hcomp] at h
        rcases List.mem_cons.mp h with rfl | h2
        · rfl
        · exact ih _ en h2
      · rw [if_neg hcomp] at h
        rcases List.mem_cons.mp h with rfl | h2
        · rfl
        · exact ih evals en h2

theorem buildEntries_mem (ef : String → Evaluation) (impls : List (String × Bool)) :
    ∀ (wts : List (String × String)) (evals : List (String × Evaluation)) (wid path : String),
      alookup wts wid = some path →
      (⟨wid, (alookup impls wid).getD false,
        if (alookup impls wid).getD false then some ((alookup evals wid).getD (ef path))
        else alookup evals wid⟩ : Voting.EvalEntry) ∈
        (Voting.buildEntries ef impls wts evals).1 := by
  intro wts
  induction wts with
  | nil => intro evals wid path h; simp [alookup] at h
  | cons wp rest ih =>
    intro evals wid path h
    obtain ⟨w0, p0⟩ := wp
    by_cases hw : w0 = wid
    · subst hw
      have hp : p0 = path := Option.some.inj (by simpa [alookup] using h)
      subst hp
      cases hc : alookup evals w0 with
      | some e =>
        rw [Voting.buildEntries]
        rw [hc]
        by_cases hcomp : (alookup impls w0).getD false = true
        · simp only [hcomp, if_true]
          exact List.mem_cons_self _ _
        · have hcf : (alookup impls w0).getD false = false := by
            revert hcomp; cases (alookup impls w0).getD false <;> simp
          simp only [hcf, if_false, Bool.false_eq_true]
          exact List.mem_cons_self _ _
      | none =>
        rw [Voting.buildEntries]
        rw [hc]
        by_cases hcomp : (alookup impls w0).getD false = true
        · rw [if_pos hcomp]
          simp only [hcomp, if_true, Option.getD_none]
          exact List.mem_cons_self _ _
        · rw [if_neg hcomp]
          have hcf : (alookup impls w0).getD false = false := by
            revert hcomp; cases (alookup impls w0).getD false <;> simp
          simp only [hcf, if_false, Bool.false_eq_true]
          exact List.mem_cons_self _ _
    · have hrest : alookup rest wid = some path := by
        simpa [alookup, hw] using h
      cases hc : alookup evals w0 with
      | some e =>
        rw [Voting.buildEntries]
        rw [hc]
        exact List.mem_cons_of_mem _ (ih evals wid path hrest)
      | none =>
        rw [Voting.buildEntries]
        rw [hc]
        by_cases hcomp : (alookup impls w0).getD false = true
        · rw [if_pos hcomp]
          have hpres : alookup (dictSet evals w0 (ef p0)) wid = alookup evals wid := by
            rw [alookup_dictSet]
            exact if_neg hw
          have := ih (dictSet evals w0 (ef p0)) wid path hrest
          rw [hpres] at this
          exact List.mem_cons_of_mem _ this
        · rw [if_neg hcomp]
          exact List.mem_cons_of_mem _ (ih evals wid path hrest)

theorem buildCandidates_completed (ef : String → Evaluation) (impls : List (String × Bool)) :
    ∀ (wts : List (String × String)) (evals : List (String × Evaluation)),
      ∀ c ∈ (Voting.buildCandidates ef impls wts evals).1,
        (alookup impls c.1).getD false = true := by
  intro wts
  induction wts with
  | nil => intro evals c h; simp [Voting.buildCandidates] at h
  | cons wp rest ih =>
    intro evals c h
    obtain ⟨w0, p0⟩ := wp
    by_cases hcomp : (alookup impls w0).getD false = true
    · rw [Voting.buildCandidates, if_pos hcomp] at h
      cases hc : alookup evals w0 with
      | some e =>
        rw [hc] at h
        rcases List.mem_cons.mp h with rfl | h2
        · exact hcomp
        · exact ih evals c h2
      | none =>
        rw [hc] at h
        rcases List.mem_cons.mp h with rfl | h2
        · exact hcomp
        · exact ih _ c h2
    · rw [Voting.buildCandidates, if_neg hcomp] at h
      exact ih evals c h

theorem buildCandidates_ids (ef : String → Evaluation) (impls : List (String × Bool)) :
    ∀ (wts : List (String × String)) (evals : List (String × Evaluation)),
      (Voting.buildCandidates ef impls wts evals).1.map Prod.fst =
        (wts.map Prod.fst).filter (fun w => (alookup impls w).getD false) := by
  intro wts
  induction wts with
  | nil => intro evals; rfl
  | cons wp rest ih =>
    intro evals
    obtain ⟨w0, p0⟩ := wp
    by_cases hcomp : (alookup impls w0).getD false = true
    · cases hc : alookup evals w0 with
      | some e => simp [Voting.buildCandidates, hcomp, hc, ih]
      | none => simp [Voting.buildCandidates, hcomp, hc, ih]
    · have hcf : (alookup impls w0).getD false = false := by
        revert hcomp; cases (alookup impls w0).getD false <;> simp
      simp [Voting.buildCandidates, hcf, ih]

theorem buildCandidates_mem (ef : String → Evaluation) (impls : List (String × Bool)) :
    ∀ (wts : List (String × String)) (evals : List (String × Evaluation)) (wid path : String),
      alookup wts wid = some path →
      (alookup impls wid).getD false = true →
      (wid, (alookup evals wid).getD (ef path)) ∈
        (Voting.buildCandidates ef impls wts evals).1 := by
  intro wts
  induction wts with
  | nil => intro evals wid path h _; simp [alookup] at h
  | cons wp rest ih =>
    intro evals wid path h hcomp
    obtain ⟨w0, p0⟩ := wp
    by_cases hw : w0 = wid
    · subst hw
      have hp : p0 = path := Option.some.inj (by simpa [alookup] using h)
      subst hp
      rw [Voting.buildCandidates, if_pos hcomp]
      cases hc : alookup evals w0 with
      | some e =>
        simp only [hc, Option.getD_some]
        exact List.mem_cons_self _ _
      | none =>
        simp only [hc, Option.getD_none]
        exact List.mem_cons_self _ _
    · have hrest : alookup rest wid = some path := by
        simpa [alookup, hw] using h
      by_cases hcomp0 : (alookup impls w0).getD false = true
      · rw [Voting.buildCandidates, if_pos hcomp0]
        cases hc : alookup evals w0 with
        | some e => exact List.mem_cons_of_mem _ (ih evals wid path hrest hcomp)
        | none =>
          have hpres : alookup (dictSet evals w0 (ef p0)) wid = alookup evals wid := by
            rw [alookup_dictSet]
            exact if_neg hw
          have := ih (dictSet evals w0 (ef p0)) wid path hrest hcomp
          rw [hpres] at this
          exact List.mem_cons_of_mem _ this
      · rw [Voting.buildCandidates, if_neg hcomp0]
        exact ih evals wid path hrest hcomp

theorem getD_false_eq_true {o : Option Bool} (h : o.getD false = true) : o = some true := by
  cases o with
  | none => simp at h
  | some b =>
    cases b with
    | false => simp at h
    | true => rfl

theorem foldCompletions_keeps_true (logC : String → Bool) :
    ∀ (wts : List (String × String)) (impls : List (String × Bool)) (wid : String),
      alookup impls wid = some true →
      alookup (wts.foldl (fun impls wp =>
        if !(alookup impls wp.1).getD false && logC wp.2 then dictSet impls wp.1 true
        else impls) impls) wid = some true := by
  intro wts
  induction wts with
  | nil => intro impls wid h; simpa using h
  | cons wp rest ih =>
    intro impls wid h
    rw [List.foldl_cons]
    apply ih
    by_cases hc : (!(alookup impls wp.1).getD false && logC wp.2) = true
    · rw [if_pos hc, alookup_dictSet]
      by_cases he : wp.1 = wid
      · simp [he]
      · simp [he, h]
    · rw [if_neg hc]
      exact h

theorem foldCompletions_not_mem (logC : String → Bool) :
    ∀ (wts : List (String × String)) (impls : List (String × Bool)) (wid : String),
      wid ∉ wts.map Prod.fst →
      alookup (wts.foldl (fun impls wp =>
        if !(alookup impls wp.1).getD false && logC wp.2 then dictSet impls wp.1 true
        else impls) impls) wid = alookup impls wid := by
  intro wts
  induction wts with
  | nil => intro impls wid _; rfl
  | cons wp rest ih =>
    intro impls wid h
    simp only [List.map_cons, List.mem_cons] at h
    push_neg at h
    rw [List.foldl_cons, ih _ _ h.2]
    by_cases hc : (!(alookup impls wp.1).getD false && logC wp.2) = true
    · rw [if_pos hc, alookup_dictSet, if_neg (fun hh => h.1 hh.symm)]
    · rw [if_neg hc]

theorem foldCompletions_lookup (logC : String → Bool) :
    ∀ (wts : List (String × String)) (impls : List (String × Bool)) (wid path : String),
      (wts.map Prod.fst).Nodup → alookup wts wid = some path →
      alookup (wts.foldl (fun impls wp =>
        if !(alookup impls wp.1).getD false && logC wp.2 then dictSet impls wp.1 true
        else impls) impls) wid =
        if (alookup impls wid).getD false || logC path then some true
        else alookup impls wid := by
  intro wts
  induction wts with
  | nil => intro impls wid path _ h; simp [alookup] at h
  | cons wp rest ih =>
    intro impls wid path hnd h
    obtain ⟨w0, p0⟩ := wp
    simp only [List.map_cons, List.nodup_cons] at hnd
    rw [List.foldl_cons]
    by_cases hw : w0 = wid
    · subst hw
      have hp : p0 = path := Option.some.inj (by simpa [alookup] using h)
      subst hp
      rw [foldCompletions_not_mem logC rest _ w0 hnd.1]
      by_cases hdone : (alookup impls w0).getD false = true
      · have hcond : (!(alookup impls w0).getD false && logC p0) = false := by
          simp [hdone]
        rw [hcond]
        simp only [Bool.false_eq_true, if_false, hdone, Bool.true_or, if_true]
        exact getD_false_eq_true hdone
      · have hdf : (alookup impls w0).getD false = false := by
          revert hdone; cases (alookup impls w0).getD false <;> simp
        by_cases hl : logC p0 = true
        · have hcond : (!(alookup impls w0).getD false && logC p0) = true := by
            simp [hdf, hl]
        
          rw [hcond, if_pos rfl, alookup_dictSet, if_pos rfl, hdf, hl]
          simp
        · have hlf : logC p0 = false := by
            revert hl; cases logC p0 <;> simp
          have hcond : (!(alookup impls w0).getD false && logC p0) = false := by
            simp [hlf]
          rw [hcond]
          simp [hdf, hlf]
    · have hrest : alookup rest wid = some path := by
        simpa [alookup, hw] using h
      by_cases hc : (!(alookup impls w0).getD false && logC p0) = true
      · have hpres : alookup (dictSet impls w0 true) wid = alookup impls wid := by
          rw [alookup_dictSet, if_neg hw]
        rw [if_pos hc, ih _ wid path hnd.2 hrest, hpres]
      · rw [if_neg hc, ih _ wid path hnd.2 hrest]

/-! ### Claims -/

theorem score_formula_aux (hc tp : Bool) (files : Nat) :
    ((if hc then 30 else 0) + (if tp then 50 else 0) +
        (if files > 0 then min (files * 5) 20 else 0) =
      (if hc then 30 else 0) + (if tp then 50 else 0) + min (files * 5) 20) ∧
    (if hc then 30 else 0) + (if tp then 50 else 0) +
        (if files > 0 then min (files * 5) 20 else 0) ≤ 100 := by
  obtain ⟨m, hm⟩ : ∃ m, min (files * 5) 20 = m := ⟨_, rfl⟩
  have h3 : (if files > 0 then min (files * 5) 20 else 0) = m := by
    rcases Nat.eq_zero_or_pos files with hz | hp
    · subst hz
      simpa using hm
    · rw [if_pos hp, hm]
  have h4 : m ≤ 20 := hm ▸ Nat.min_le_right _ _
  rw [h3, hm]
  refine ⟨rfl, ?_⟩
  have h1 : (if hc then 30 else 0) ≤ 30 := by split <;> omega
  have h2 : (if tp then 50 else 0) ≤ 50 := by split <;> omega
  omega

/-- C1 counterexample: the score formula does not hold of every evaluation.
On diff output "file" the summary parse raises inside `int()` after
`has_changes` was already set, the outer `except` returns the partial
record, and the score keeps its initial 0 where the formula demands 30. -/
theorem quality_score_error_cex :
    (Voting.evaluate_implementation true "file" none).has_changes = true ∧
    (Voting.evaluate_implementation true "file" none).err = true ∧
    (Voting.evaluate_implementation true "file" none).quality_score = 0 ∧
    (Voting.evaluate_implementation true "file" none).quality_score ≠
      (if (Voting.evaluate_implementation true "file" none).has_changes then 30 else 0) +
      (if Voting.testsPassed (Voting.evaluate_implementation true "file" none).test_results
       then 50 else 0) +
      min ((Voting.evaluate_implementation true "file" none).files_changed * 5) 20 := by
  decide

/-- C1 (amended): every evaluation record produced without a parse error
(no `"error"` key recorded) has `quality_score = (30 if has_changes) +
(50 if tests ran and succeeded) + min(files_changed * 5, 20)`; and on every
input — the error path included, where the score keeps its initial 0 — the
score lies in 0..100 (a `Nat`, so the lower bound is inherent). -/
theorem quality_score_formula (diffOk : Bool) (out : String) (tr : Option TestResults)
    (e : Evaluation) (h : Voting.evaluate_implementation diffOk out tr = e) :
    (e.err = false →
      e.quality_score =
        (if e.has_changes then 30 else 0) +
        (if Voting.testsPassed e.test_results then 50 else 0) +
        min (e.files_changed * 5) 20) ∧
    e.quality_score ≤ 100 := by
  simp only [Voting.evaluate_implementation] at h
  generalize hpr : (if (diffOk && !(out == "")) then Voting.parseDiffStat out
      else ({ files := 0, added := 0, removed := 0 }, true)) = pr at h
  obtain ⟨d, ok⟩ := pr
  cases ok with
  | true =>
    rw [if_pos rfl] at h
    rw [← h]
    constructor
    · intro h0
      exact (score_formula_aux (diffOk && !(out == "")) (Voting.testsPassed tr) d.files).1
    · exact (score_formula_aux (diffOk && !(out == "")) (Voting.testsPassed tr) d.files).2
  | false =>
    rw [if_neg (by simp)] at h
    rw [← h]
    exact ⟨fun h0 => absurd h0 (by simp), by simp⟩

/-- Witness for C1 at the first scenario input, where no parse error
occurs. -/
theorem quality_score_formula_witness :
    Voting.evaluate_implementation true "2 files changed, 10 insertions(+), 3 deletions(-)" none
      = evalC28 ∧
    evalC28.err = false ∧
    (evalC28.quality_score =
      (if evalC28.has_changes then 30 else 0) +
      (if Voting.testsPassed evalC28.test_results then 50 else 0) +
      min (evalC28.files_changed * 5) 20) ∧ evalC28.quality_score ≤ 100 := by
  have h := quality_score_formula true "2 files changed, 10 insertions(+), 3 deletions(-)" none
    evalC28 (by decide)
  exact ⟨by decide, by decide, h.1 (by decide), h.2⟩

/-- C8: the evaluator parses "2 files changed, 10 insertions(+), 3 deletions(-)"
to `files_changed = 2, lines_added = 10, lines_removed = 3` and
"1 file changed, 5 deletions(-)" to `files_changed = 1, lines_added = 0,
lines_removed = 5`; any counter whose field is absent from the summary line
stays zero, and its absence is never an error. -/
theorem diff_stat_parsing :
    (Voting.evaluate_implementation true "2 files changed, 10 insertions(+), 3 deletions(-)" none =
      evalC28) ∧
    (Voting.evaluate_implementation true "1 file changed, 5 deletions(-)" none =
      { has_changes := true, files_changed := 1, lines_added := 0, lines_removed := 5,
        test_results := none, quality_score := 35, err := false }) ∧
    (∀ line : List Char,
      (¬ seqIn "insertion".toList line → (Voting.parseStatLine line).1.added = 0) ∧
      (¬ seqIn "deletion".toList line → (Voting.parseStatLine line).1.removed = 0)) ∧
    (∀ line : List Char, ¬ seqIn "file".toList line →
      Voting.parseStatLine line = ({ files := 0, added := 0, removed := 0 }, true)) := by
  refine ⟨by decide, by decide, ?_, parseStatLine_no_files⟩
  intro line
  exact ⟨fun hni => parseStatLine_added_zero line hni,
    fun hnd => parseStatLine_removed_zero line hnd⟩

/-- Witness for C8: the second scenario line contains no insertion field and
parses, without error, with `lines_added = 0`. -/
theorem diff_stat_parsing_witness :
    Voting.parseStatLine lineC8 = (dC8, true) ∧
    ¬ seqIn "insertion".toList lineC8 ∧ (Voting.parseStatLine lineC8).1.added = 0 := by
  have hni : ¬ seqIn "insertion".toList lineC8 := by
    intro hs
    have hc := seqIn_containsSeq _ _ hs
    revert hc
    decide
  exact ⟨by decide, hni, ((diff_stat_parsing).2.2.1 lineC8).1 hni⟩

/-- C2 counterexample: `evaluate_implementations` does not consider only
completed variants — on a session whose variant-1 is still pending, the
ranked list it returns contains an entry with `completed = false` (the claim
says only `Completed` variants are considered). -/
theorem ranking_includes_pending_cex :
    (Voting.evaluate_implementations efA regA "s1").map
      (fun pr => pr.1.any (fun en => !en.completed)) = some true := by decide

/-- C2 (amended): `auto_select_best`'s candidate ranking considers only
completed variants, lazily computes missing evaluations, and orders
descending by quality score with ties broken by creation order;
`evaluate_implementations` ranks entries for all variants of the session
(pending ones unevaluated) in the same stable descending order. -/
theorem ranking_stable_sorted (ef : String → Evaluation) (R : Voting.Registry)
    (sid : String) (s : Voting.Session)
    (hS : alookup R sid = some s)
    (hNd : (s.worktrees.map Prod.fst).Nodup) :
    RankingSpec ef R sid s := by
  have keysP := pairwise_idxOf_of_nodup (s.worktrees.map Prod.fst) hNd
  refine ⟨?_, ?_, ?_, ?_, ?_⟩
  · intro c hc
    exact buildCandidates_completed ef s.implementations s.worktrees s.evaluations c
      ((mem_stableSortDesc _ _ c).mp hc)
  · intro wid path hw hcomp
    exact (mem_stableSortDesc _ _ _).mpr
      (buildCandidates_mem ef s.implementations s.worktrees s.evaluations wid path hw hcomp)
  · exact sorted_stableSortDesc _ _
  · have hids := buildCandidates_ids ef s.implementations s.worktrees s.evaluations
    have hfilter : ((s.worktrees.map Prod.fst).filter
        (fun w => (alookup s.implementations w).getD false)).Pairwise
        (fun a b => idxOf a (s.worktrees.map Prod.fst) < idxOf b (s.worktrees.map Prod.fst)) :=
      keysP.filter _
    have h1 : List.Pairwise
        (fun a b => idxOf a (s.worktrees.map Prod.fst) < idxOf b (s.worktrees.map Prod.fst))
        ((Voting.buildCandidates ef s.implementations s.worktrees s.evaluations).1.map Prod.fst) := by
      rw [hids]
      exact hfilter
    have hpre : (Voting.buildCandidates ef s.implementations s.worktrees s.evaluations).1.Pairwise
        (fun a b => idxOf a.1 (s.worktrees.map Prod.fst) < idxOf b.1 (s.worktrees.map Prod.fst)) :=
      List.Pairwise.of_map Prod.fst (fun a b hab => hab) h1
    exact stable_tie_stableSortDesc _ _ _ hpre
  · intro entries R2 h
    simp only [Voting.evaluate_implementations, hS, Option.some_inj, Prod.mk.injEq] at h
    obtain ⟨hEnt, _⟩ := h
    subst hEnt
    have hids := buildEntries_ids ef s.implementations s.worktrees s.evaluations
    refine ⟨?_, ?_, ?_, ?_, ?_⟩
    · have hperm := (perm_stableSortDesc (fun en => Voting.scoreOf en.evaluation)
        (Voting.buildEntries ef s.implementations s.worktrees s.evaluations).1).map
        (fun en => en.worktree_id)
      rw [hids] at hperm
      exact hperm
    · intro en hen
      exact buildEntries_completed ef s.implementations s.worktrees s.evaluations en
        ((mem_stableSortDesc _ _ en).mp hen)
    · intro wid path hw
      exact (mem_stableSortDesc _ _ _).mpr
        (buildEntries_mem ef s.implementations s.worktrees s.evaluations wid path hw)
    · exact sorted_stableSortDesc _ _
    · have h1 : List.Pairwise
          (fun a b => idxOf a (s.worktrees.map Prod.fst) < idxOf b (s.worktrees.map Prod.fst))
          ((Voting.buildEntries ef s.implementations s.worktrees s.evaluations).1.map
            (fun en => en.worktree_id)) := by
        rw [hids]
        exact keysP
      have hpre : (Voting.buildEntries ef s.implementations s.worktrees s.evaluations).1.Pairwise
          (fun a b => idxOf a.worktree_id (s.worktrees.map Prod.fst) <
            idxOf b.worktree_id (s.worktrees.map Prod.fst)) :=
        List.Pairwise.of_map (fun en => en.worktree_id) (fun a b hab => hab) h1
      exact stable_tie_stableSortDesc _ _ _ hpre

/-- Witness for C2 on the concrete session. -/
theorem ranking_stable_sorted_witness :
    alookup regA "s1" = some sessA ∧ (sessA.worktrees.map Prod.fst).Nodup ∧
    RankingSpec efA regA "s1" sessA :=
  ⟨rfl, by decide, ranking_stable_sorted efA regA "s1" sessA rfl (by decide)⟩

theorem snd_nodup_fst_eq {l : List (String × String)} (h : (l.map Prod.snd).Nodup)
    {w1 w2 p : String} (h1 : (w1, p) ∈ l) (h2 : (w2, p) ∈ l) : w1 = w2 := by
  induction l with
  | nil => simp at h1
  | cons q rest ih =>
    obtain ⟨a, b⟩ := q
    simp only [List.map_cons, List.nodup_cons] at h
    rcases List.mem_cons.mp h1 with he1 | ht1
    · rcases List.mem_cons.mp h2 with he2 | ht2
      · rw [Prod.mk.injEq] at he1 he2
        rw [he1.1, he2.1]
      · exfalso
        apply h.1
        rw [Prod.mk.injEq] at he1
        rw [← he1.2]
        exact List.mem_map.mpr ⟨(w2, p), ht2, rfl⟩
    · rcases List.mem_cons.mp h2 with he2 | ht2
      · exfalso
        apply h.1
        rw [Prod.mk.injEq] at he2
        rw [← he2.2]
        exact List.mem_map.mpr ⟨(w1, p), ht1, rfl⟩
      · exact ih h.2 ht1 ht2

/-- C3 counterexample: finalize does not drop the losers' entries from the
session's variant map — after a successful finalize of variant-1 the loser
variant-2 is still present in the registry's (unchanged) session map. -/
theorem finalize_keeps_map_cex :
    (Voting.finalize_best regA "s1" "variant-1" false true).2.1 = regA ∧
    ((alookup (Voting.finalize_best regA "s1" "variant-1" false true).2.1 "s1").map
      (fun s => alookup s.worktrees "variant-2")) = some (some "p2") := by decide

/-- C3 (amended): finalize leaves the winner's working copy and branch
untouched and issues removal of every other variant's working copy and
deletion of its branch, but keeps the session map (and the whole registry)
unchanged: no variant entry is dropped, and the session stays registered. -/
theorem finalize_frame (R : Voting.Registry) (sid wid path : String) (s : Voting.Session)
    (mtm ok : Bool)
    (hS : alookup R sid = some s) (hW : alookup s.worktrees wid = some path)
    (hM : ¬(mtm = true ∧ ok = false))
    (hPaths : (s.worktrees.map Prod.snd).Nodup) :
    (Voting.finalize_best R sid wid mtm ok).2.1 = R ∧
    GitCmd.worktreeRemove path ∉ (Voting.finalize_best R sid wid mtm ok).2.2 ∧
    GitCmd.branchDelete (Voting.branchName sid wid) ∉
      (Voting.finalize_best R sid wid mtm ok).2.2 ∧
    (∀ w p, (w, p) ∈ s.worktrees → w ≠ wid →
      GitCmd.worktreeRemove p ∈ (Voting.finalize_best R sid wid mtm ok).2.2 ∧
      GitCmd.branchDelete (Voting.branchName sid w) ∈
        (Voting.finalize_best R sid wid mtm ok).2.2) := by
  have hc : (mtm && !ok) = false := by
    cases mtm <;> cases ok <;> simp_all
  have hfx : Voting.finalize_best R sid wid mtm ok =
      (FinalizeResult.finalized wid ((s.worktrees.filter (fun wp => wp.1 != wid)).map Prod.fst),
        R,
        (if mtm then [GitCmd.checkout s.base_branch, GitCmd.merge (Voting.branchName sid wid)]
         else []) ++
        (s.worktrees.filter (fun wp => wp.1 != wid)).flatMap (fun wp =>
          [GitCmd.worktreeRemove wp.2, GitCmd.branchDelete (Voting.branchName sid wp.1)])) := by
    simp [Voting.finalize_best, hS, hW, hc]
  rw [hfx]
  refine ⟨rfl, ?_, ?_, ?_⟩
  · intro hmem
    rcases List.mem_append.mp hmem with hpre | hflat
    · revert hpre
      cases mtm <;> simp
    · obtain ⟨wp, hwp, hmem2⟩ := List.mem_flatMap.mp hflat
      obtain ⟨hwp1, hwp2⟩ := List.mem_filter.mp hwp
      have hp2 : wp.2 = path := by
        rcases List.mem_cons.mp hmem2 with hx | hx
        · exact (GitCmd.worktreeRemove.injEq _ _).mp hx.symm
        · simp at hx
      have hfst : wp.1 = wid := by
        have hwmem : (wp.1, path) ∈ s.worktrees := by
          rw [← hp2]
          exact hwp1
        exact snd_nodup_fst_eq hPaths hwmem (mem_of_alookup _ _ _ hW)
      rw [hfst] at hwp2
      simp at hwp2
  · intro hmem
    rcases List.mem_append.mp hmem with hpre | hflat
    · revert hpre
      cases mtm <;> simp
    · obtain ⟨wp, hwp, hmem2⟩ := List.mem_flatMap.mp hflat
      obtain ⟨hwp1, hwp2⟩ := List.mem_filter.mp hwp
      have hbr : Voting.branchName sid wp.1 = Voting.branchName sid wid := by
        rcases List.mem_cons.mp hmem2 with hx | hx
        · simp at hx
        · have hx2 := List.mem_singleton.mp hx
          exact ((GitCmd.branchDelete.injEq _ _).mp hx2).symm
      have hfst : wp.1 = wid := votingBranchName_inj sid _ _ hbr
      rw [hfst] at hwp2
      simp at hwp2
  · intro w p hmem hne
    have hwf : (w, p) ∈ s.worktrees.filter (fun wp => wp.1 != wid) :=
      List.mem_filter.mpr ⟨hmem, by simp [hne]⟩
    constructor
    · exact List.mem_append_right _ (List.mem_flatMap.mpr ⟨(w, p), hwf, by simp⟩)
    · exact List.mem_append_right _ (List.mem_flatMap.mpr ⟨(w, p), hwf, by simp⟩)

/-- Witness for C3 on the concrete session. -/
theorem finalize_frame_witness :
    ¬(false = true ∧ true = false) ∧
    (Voting.finalize_best regA "s1" "variant-1" false true).2.1 = regA ∧
    GitCmd.worktreeRemove "p1" ∉ (Voting.finalize_best regA "s1" "variant-1" false true).2.2 ∧
    GitCmd.worktreeRemove "p2" ∈ (Voting.finalize_best regA "s1" "variant-1" false true).2.2 := by
  have h := finalize_frame regA "s1" "variant-1" "p1" sessA false true rfl rfl
    (by simp) (by decide)
  exact ⟨by simp, h.1, h.2.1, (h.2.2.2 "variant-2" "p2" (by decide) (by decide)).1⟩

/-- C4: with `merge_to_main` set and a failing merge, finalize surfaces the
merge error, issues only the checkout and merge attempt (no working copy is
removed, no branch is deleted), and leaves the registry — the session's
variant map included — unchanged. -/
theorem merge_conflict_aborts (R : Voting.Registry) (sid wid path : String) (s : Voting.Session)
    (hS : alookup R sid = some s) (hW : alookup s.worktrees wid = some path) :
    (Voting.finalize_best R sid wid true false).1 = FinalizeResult.mergeError ∧
    (Voting.finalize_best R sid wid true false).2.1 = R ∧
    (Voting.finalize_best R sid wid true false).2.2 =
      [GitCmd.checkout s.base_branch, GitCmd.merge (Voting.branchName sid wid)] ∧
    (∀ p', GitCmd.worktreeRemove p' ∉ (Voting.finalize_best R sid wid true false).2.2) ∧
    (∀ b, GitCmd.branchDelete b ∉ (Voting.finalize_best R sid wid true false).2.2) := by
  have hfx : Voting.finalize_best R sid wid true false =
      (FinalizeResult.mergeError, R,
        [GitCmd.checkout s.base_branch, GitCmd.merge (Voting.branchName sid wid)]) := by
    simp [Voting.finalize_best, hS, hW]
  rw [hfx]
  refine ⟨rfl, rfl, rfl, ?_, ?_⟩ <;> intro x <;> simp

/-- Witness for C4 on the concrete session. -/
theorem merge_conflict_aborts_witness :
    (Voting.finalize_best regA "s1" "variant-1" true false).1 = FinalizeResult.mergeError ∧
    (Voting.finalize_best regA "s1" "variant-1" true false).2.1 = regA := by
  have h := merge_conflict_aborts regA "s1" "variant-1" "p1" sessA rfl rfl
  exact ⟨h.1, h.2.1⟩

/-- C5: cleanup without `force` on a session with pending variants returns
an error naming exactly the pending variant ids, issues no git command, and
leaves the registry (hence the session's registration) unchanged. -/
theorem cleanup_refuses_pending (R : Voting.Registry) (sid : String) (s : Voting.Session)
    (hS : alookup R sid = some s)
    (hP : (s.implementations.filter (fun p => !p.2)).map Prod.fst ≠ []) :
    (Voting.cleanup_session R sid false).1 =
      CleanupResult.incomplete ((s.implementations.filter (fun p => !p.2)).map Prod.fst) ∧
    (∀ w, w ∈ (s.implementations.filter (fun p => !p.2)).map Prod.fst ↔
      (w, false) ∈ s.implementations) ∧
    (Voting.cleanup_session R sid false).2.1 = R ∧
    (Voting.cleanup_session R sid false).2.2 = [] := by
  have hne : ((s.implementations.filter (fun p => !p.2)).map Prod.fst).isEmpty = false := by
    cases hcase : (s.implementations.filter (fun p => !p.2)).map Prod.fst with
    | nil => exact absurd hcase hP
    | cons a l => rfl
  have hres : Voting.cleanup_session R sid false =
      (CleanupResult.incomplete ((s.implementations.filter (fun p => !p.2)).map Prod.fst),
        R, []) := by
    simp [Voting.cleanup_session, hS, hne]
  rw [hres]
  refine ⟨rfl, ?_, rfl, rfl⟩
  intro w
  constructor
  · intro hw
    obtain ⟨q, hq, rfl⟩ := List.mem_map.mp hw
    obtain ⟨hq1, hq2⟩ := List.mem_filter.mp hq
    obtain ⟨a, b⟩ := q
    have hb : b = false := by
      revert hq2
      cases b <;> simp
    subst hb
    exact hq1
  · intro hw
    exact List.mem_map.mpr ⟨(w, false), List.mem_filter.mpr ⟨hw, rfl⟩, rfl⟩

/-- Witness for C5 on the concrete session (variant-1 pending). -/
theorem cleanup_refuses_pending_witness :
    (Voting.cleanup_session regA "s1" false).1 = CleanupResult.incomplete ["variant-1"] ∧
    (Voting.cleanup_session regA "s1" false).2.1 = regA ∧
    (Voting.cleanup_session regA "s1" false).2.2 = [] := by
  have h := cleanup_refuses_pending regA "s1" sessA rfl (by decide)
  exact ⟨h.1, h.2.2.1, h.2.2.2⟩

theorem get_worktree_info_reg (logC : String → Bool) (R : Workflows.Registry)
    (sid : String) (w : Option String) :
    (Workflows.get_worktree_info logC R sid w).2 = Workflows.monitorTick logC R sid := by
  cases h0 : alookup R sid with
  | none => simp [Workflows.get_worktree_info, Workflows.monitorTick, h0]
  | some s =>
    cases w with
    | none => simp [Workflows.get_worktree_info, Workflows.monitorTick, h0]
    | some wid =>
      cases hw : alookup (Workflows.updateCompletions logC s).worktrees wid with
      | none => simp [Workflows.get_worktree_info, Workflows.monitorTick, h0, hw]
      | some p => simp [Workflows.get_worktree_info, Workflows.monitorTick, h0, hw]

theorem wfinalize_reg (R : Workflows.Registry) (sid wid : String) (mtm ok : Bool) :
    (Workflows.finalize_best R sid wid mtm ok).2.1 = R := by
  cases h0 : alookup R sid with
  | none => simp [Workflows.finalize_best, h0]
  | some s =>
    cases hw : alookup s.worktrees wid with
    | none => simp [Workflows.finalize_best, h0, hw]
    | some p =>
      by_cases h : (mtm && !ok) = true
      · simp [Workflows.finalize_best, h0, hw, h]
      · simp [Workflows.finalize_best, h0, hw, h]

theorem monitorTick_mono (logC : String → Bool) (R : Workflows.Registry)
    (sid0 sid wid : String) (s s' : Workflows.Session)
    (hS : alookup R sid = some s)
    (hC : alookup s.implementations wid = some true)
    (hS' : alookup (Workflows.monitorTick logC R sid0) sid = some s') :
    alookup s'.implementations wid = some true := by
  unfold Workflows.monitorTick at hS'
  cases h0 : alookup R sid0 with
  | none =>
    rw [h0] at hS'
    have heq : s = s' := Option.some.inj (hS.symm.trans hS')
    rw [← heq]
    exact hC
  | some s0 =>
    rw [h0, alookup_dictSet] at hS'
    by_cases he : sid0 = sid
    · rw [if_pos he] at hS'
      subst he
      have hss : s0 = s := Option.some.inj (h0.symm.trans hS)
      subst hss
      have hs' : s' = Workflows.updateCompletions logC s0 := (Option.some.inj hS').symm
      subst hs'
      exact foldCompletions_keeps_true logC _ _ _ hC
    · rw [if_neg he] at hS'
      have heq : s = s' := Option.some.inj (hS.symm.trans hS')
      rw [← heq]
      exact hC

/-- C6: completion is monotonic — once a variant's completion flag is true,
no subsequent operation of the system (monitor tick, explicit completion
call, info query, evaluation, finalize, cleanup) ever makes it false again:
whenever the session is still registered after the operation, the flag is
still true. -/
theorem completion_monotonic (op : Workflows.WOp) (R : Workflows.Registry)
    (sid wid : String) (s s' : Workflows.Session)
    (hNd : (R.map Prod.fst).Nodup)
    (hS : alookup R sid = some s)
    (hC : alookup s.implementations wid = some true)
    (hS' : alookup (Workflows.applyWOp op R) sid = some s') :
    alookup s'.implementations wid = some true := by
  cases op with
  | tick logC sid0 =>
    exact monitorTick_mono logC R sid0 sid wid s s' hS hC hS'
  | info logC sid0 w =>
    rw [show Workflows.applyWOp (Workflows.WOp.info logC sid0 w) R =
      Workflows.monitorTick logC R sid0 from get_worktree_info_reg logC R sid0 w] at hS'
    exact monitorTick_mono logC R sid0 sid wid s s' hS hC hS'
  | mark sid0 wid0 =>
    simp only [Workflows.applyWOp, Workflows.mark_implementation_complete] at hS'
    cases h0 : alookup R sid0 with
    | none =>
      simp only [h0] at hS'
      have heq : s = s' := Option.some.inj (hS.symm.trans hS')
      rw [← heq]
      exact hC
    | some s0 =>
      simp only [h0] at hS'
      cases hw0 : alookup s0.worktrees wid0 with
      | none =>
        simp only [hw0] at hS'
        have heq : s = s' := Option.some.inj (hS.symm.trans hS')
        rw [← heq]
        exact hC
      | some p0 =>
        simp only [hw0] at hS'
        rw [alookup_dictSet] at hS'
        by_cases he : sid0 = sid
        · rw [if_pos he] at hS'
          subst he
          have hss : s0 = s := Option.some.inj (h0.symm.trans hS)
          subst hss
          have hs' : s' = { s0 with implementations := dictSet s0.implementations wid0 true } :=
            (Option.some.inj hS').symm
          subst hs'
          show alookup (dictSet s0.implementations wid0 true) wid = some true
          rw [alookup_dictSet]
          by_cases hww : wid0 = wid
          · rw [if_pos hww]
          · rw [if_neg hww]
            exact hC
        · rw [if_neg he] at hS'
          have heq : s = s' := Option.some.inj (hS.symm.trans hS')
          rw [← heq]
          exact hC
  | evalImpls sid0 =>
    have heq : s = s' := Option.some.inj (hS.symm.trans hS')
    rw [← heq]
    exact hC
  | fin sid0 wid0 mtm ok =>
    rw [show Workflows.applyWOp (Workflows.WOp.fin sid0 wid0 mtm ok) R = R from
      wfinalize_reg R sid0 wid0 mtm ok] at hS'
    have heq : s = s' := Option.some.inj (hS.symm.trans hS')
    rw [← heq]
    exact hC
  | cleanup sid0 f =>
    simp only [Workflows.applyWOp, Workflows.cleanup_session] at hS'
    cases h0 : alookup R sid0 with
    | none =>
      simp only [h0] at hS'
      have heq : s = s' := Option.some.inj (hS.symm.trans hS')
      rw [← heq]
      exact hC
    | some s0 =>
      simp only [h0] at hS'
      split at hS'
      · have heq : s = s' := Option.some.inj (hS.symm.trans hS')
        rw [← heq]
        exact hC
      · by_cases he : sid0 = sid
        · subst he
          rw [alookup_removeKey_self R sid0 hNd] at hS'
          exact absurd hS' (by simp)
        · rw [alookup_removeKey_ne R sid0 sid he] at hS'
          have heq : s = s' := Option.some.inj (hS.symm.trans hS')
          rw [← heq]
          exact hC

/-- Witness for C6: a monitor tick with no new log completions keeps the
completed variant completed. -/
theorem completion_monotonic_witness :
    alookup regW "abc" = some sessW ∧
    alookup sessW.implementations "variant-1" = some true ∧
    alookup (Workflows.applyWOp (Workflows.WOp.tick logA "abc") regW) "abc" = some sessW2 ∧
    alookup sessW2.implementations "variant-1" = some true := by
  have h := completion_monotonic (Workflows.WOp.tick logA "abc") regW "abc" "variant-1"
    sessW sessW2 (by decide) rfl rfl (by decide)
  exact ⟨rfl, rfl, by decide, h⟩

/-- C7 counterexample: once the session's bookkeeping is gone, the
recomputed (fallback) branch name omits the task slug and differs from the
branch name created at provisioning. -/
theorem branch_fallback_cex :
    Workflows.get_branch_name [] "abc" "variant-1" = "voting-abc-variant-1" ∧
    Workflows.provisionBranchName "abc" "add logging" "variant-1" =
      "voting-abc-add-logging-variant-1" ∧
    Workflows.get_branch_name [] "abc" "variant-1" ≠
      Workflows.provisionBranchName "abc" "add logging" "variant-1" := by decide

/-- C7 (amended): the provisioning branch name is a pure function of the
session id, the task text and the variant id; while the session is
registered — which is always the case inside `finalize_best` and
`cleanup_session` — the recomputation agrees with provisioning and losers
are deleted under exactly the provisioning name; the slugless fallback used
when the bookkeeping is unavailable is a different scheme. -/
theorem branch_name_reconstruction (R : Workflows.Registry) (sid wid path : String)
    (s : Workflows.Session)
    (hS : alookup R sid = some s)
    (hW : alookup s.worktrees wid = some path)
    (hslug : s.task_slug = Workflows.taskSlug s.task) :
    Workflows.get_branch_name R sid wid = Workflows.provisionBranchName sid s.task wid ∧
    (∀ w p mtm ok, (w, p) ∈ s.worktrees → w ≠ wid → ¬(mtm = true ∧ ok = false) →
      GitCmd.branchDelete (Workflows.provisionBranchName sid s.task w) ∈
        (Workflows.finalize_best R sid wid mtm ok).2.2) ∧
    (∀ w p, (w, p) ∈ s.worktrees →
      GitCmd.branchDelete (Workflows.provisionBranchName sid s.task w) ∈
        (Workflows.cleanup_session R sid true).2.2) ∧
    (∀ R2 : Workflows.Registry, alookup R2 sid = none →
      Workflows.get_branch_name R2 sid wid = "voting-" ++ sid ++ "-" ++ wid) := by
  have hgb : ∀ w, Workflows.get_branch_name R sid w =
      Workflows.provisionBranchName sid s.task w := by
    intro w
    simp [Workflows.get_branch_name, hS, Workflows.provisionBranchName, hslug]
  refine ⟨hgb wid, ?_, ?_, ?_⟩
  · intro w p mtm ok hmem hne hM
    have hc : (mtm && !ok) = false := by
      cases mtm <;> cases ok <;> simp_all
    have hfx : (Workflows.finalize_best R sid wid mtm ok).2.2 =
        (if mtm then [GitCmd.checkout s.base_branch, GitCmd.merge (Workflows.get_branch_name R sid wid)]
         else []) ++
        (s.worktrees.filter (fun wp => wp.1 != wid)).flatMap (fun wp =>
          [GitCmd.worktreeRemove wp.2, GitCmd.branchDelete (Workflows.get_branch_name R sid wp.1)]) := by
      simp [Workflows.finalize_best, hS, hW, hc]
    rw [hfx]
    refine List.mem_append_right _ (List.mem_flatMap.mpr ⟨(w, p), ?_, ?_⟩)
    · exact List.mem_filter.mpr ⟨hmem, by simp [hne]⟩
    · rw [hgb w]
      simp
  · intro w p hmem
    have hfx : (Workflows.cleanup_session R sid true).2.2 =
        s.worktrees.flatMap (fun wp =>
          [GitCmd.worktreeRemove wp.2, GitCmd.branchDelete (Workflows.get_branch_name R sid wp.1)]) := by
      simp [Workflows.cleanup_session, hS]
    rw [hfx]
    refine List.mem_flatMap.mpr ⟨(w, p), hmem, ?_⟩
    rw [hgb w]
    simp
  · intro R2 h2
    simp [Workflows.get_branch_name, h2]

/-- Witness for C7 on the concrete session. -/
theorem branch_name_reconstruction_witness :
    Workflows.get_branch_name regW "abc" "variant-1" =
      Workflows.provisionBranchName "abc" "add logging" "variant-1" ∧
    GitCmd.branchDelete (Workflows.provisionBranchName "abc" "add logging" "variant-2") ∈
      (Workflows.cleanup_session regW "abc" true).2.2 ∧
    Workflows.get_branch_name [] "abc" "variant-1" = "voting-" ++ "abc" ++ "-" ++ "variant-1" := by
  have h := branch_name_reconstruction regW "abc" "variant-1" "q1" sessW rfl rfl (by decide)
  exact ⟨h.1, h.2.2.1 "variant-2" "q2" (by decide), h.2.2.2 [] rfl⟩

theorem finalize_cases_voting (R : Voting.Registry) (sid wid : String) (mtm ok : Bool) :
    ((Voting.finalize_best R sid wid mtm ok).1 = FinalizeResult.sessionNotFound ↔
      alookup R sid = none) ∧
    (∀ s, alookup R sid = some s →
      (((Voting.finalize_best R sid wid mtm ok).1 = FinalizeResult.worktreeNotFound) ↔
        alookup s.worktrees wid = none) ∧
      (alookup s.worktrees wid ≠ none →
        (((Voting.finalize_best R sid wid mtm ok).1 = FinalizeResult.mergeError) ↔
          (mtm = true ∧ ok = false)) ∧
        (¬(mtm = true ∧ ok = false) →
          (∃ cl, (Voting.finalize_best R sid wid mtm ok).1 = FinalizeResult.finalized wid cl) ∧
          (∀ w p, (w, p) ∈ s.worktrees → w ≠ wid →
            GitCmd.worktreeRemove p ∈ (Voting.finalize_best R sid wid mtm ok).2.2)))) := by
  cases h0 : alookup R sid with
  | none =>
    have hres : Voting.finalize_best R sid wid mtm ok = (.sessionNotFound, R, []) := by
      simp [Voting.finalize_best, h0]
    rw [hres]
    refine ⟨by simp [h0], ?_⟩
    intro s hS
    exact absurd hS (by simp)
  | some s0 =>
    cases hw : alookup s0.worktrees wid with
    | none =>
      have hres : Voting.finalize_best R sid wid mtm ok = (.worktreeNotFound, R, []) := by
        simp [Voting.finalize_best, h0, hw]
      rw [hres]
      refine ⟨by simp [h0], ?_⟩
      intro s hS
      have hs : s = s0 := (Option.some.inj hS).symm
      subst hs
      refine ⟨by simp [hw], ?_⟩
      intro hne
      exact absurd hw hne
    | some p =>
      by_cases hc : (mtm && !ok) = true
      · have hmo : mtm = true ∧ ok = false := by
          cases mtm <;> cases ok <;> simp_all
        have hres : Voting.finalize_best R sid wid mtm ok =
            (.mergeError, R,
              [GitCmd.checkout s0.base_branch, GitCmd.merge (Voting.branchName sid wid)]) := by
          simp [Voting.finalize_best, h0, hw, hc, hmo.1, hmo.2]
        rw [hres]
        refine ⟨by simp [h0], ?_⟩
        intro s hS
        have hs : s = s0 := (Option.some.inj hS).symm
        subst hs
        refine ⟨by simp [hw], ?_⟩
        intro hne
        refine ⟨by simp [hmo], ?_⟩
        intro hM
        exact absurd hmo hM
      · have hc' : (mtm && !ok) = false := by
          revert hc
          cases (mtm && !ok) <;> simp
        have hncond : ¬(mtm = true ∧ ok = false) := by
          cases mtm <;> cases ok <;> simp_all
        have hres : Voting.finalize_best R sid wid mtm ok =
            (.finalized wid ((s0.worktrees.filter (fun wp => wp.1 != wid)).map Prod.fst), R,
              (if mtm then [GitCmd.checkout s0.base_branch,
                GitCmd.merge (Voting.branchName sid wid)] else []) ++
              (s0.worktrees.filter (fun wp => wp.1 != wid)).flatMap (fun wp =>
                [GitCmd.worktreeRemove wp.2, GitCmd.branchDelete (Voting.branchName sid wp.1)])) := by
          simp [Voting.finalize_best, h0, hw, hc']
        rw [hres]
        refine ⟨by simp [h0], ?_⟩
        intro s hS
        have hs : s = s0 := (Option.some.inj hS).symm
        subst hs
        refine ⟨by simp [hw], ?_⟩
        intro hne
        refine ⟨by simp [hncond], ?_⟩
        intro hM
        refine ⟨⟨_, rfl⟩, ?_⟩
        intro w p2 hmem hwne
        refine List.mem_append_right _ (List.mem_flatMap.mpr ⟨(w, p2), ?_, by simp⟩)
        exact List.mem_filter.mpr ⟨hmem, by simp [hwne]⟩

theorem finalize_cases_workflows (R : Workflows.Registry) (sid wid : String) (mtm ok : Bool) :
    ((Workflows.finalize_best R sid wid mtm ok).1 = FinalizeResult.sessionNotFound ↔
      alookup R sid = none) ∧
    (∀ s, alookup R sid = some s →
      (((Workflows.finalize_best R sid wid mtm ok).1 = FinalizeResult.worktreeNotFound) ↔
        alookup s.worktrees wid = none) ∧
      (alookup s.worktrees wid ≠ none →
        (((Workflows.finalize_best R sid wid mtm ok).1 = FinalizeResult.mergeError) ↔
          (mtm = true ∧ ok = false)) ∧
        (¬(mtm = true ∧ ok = false) →
          (∃ cl, (Workflows.finalize_best R sid wid mtm ok).1 = FinalizeResult.finalized wid cl) ∧
          (∀ w p, (w, p) ∈ s.worktrees → w ≠ wid →
            GitCmd.worktreeRemove p ∈ (Workflows.finalize_best R sid wid mtm ok).2.2)))) := by
  cases h0 : alookup R sid with
  | none =>
    have hres : Workflows.finalize_best R sid wid mtm ok = (.sessionNotFound, R, []) := by
      simp [Workflows.finalize_best, h0]
    rw [hres]
    refine ⟨by simp [h0], ?_⟩
    intro s hS
    exact absurd hS (by simp)
  | some s0 =>
    cases hw : alookup s0.worktrees wid with
    | none =>
      have hres : Workflows.finalize_best R sid wid mtm ok = (.worktreeNotFound, R, []) := by
        simp [Workflows.finalize_best, h0, hw]
      rw [hres]
      refine ⟨by simp [h0], ?_⟩
      intro s hS
      have hs : s = s0 := (Option.some.inj hS).symm
      subst hs
      refine ⟨by simp [hw], ?_⟩
      intro hne
      exact absurd hw hne
    | some p =>
      by_cases hc : (mtm && !ok) = true
      · have hmo : mtm = true ∧ ok = false := by
          cases mtm <;> cases ok <;> simp_all
        have hres : Workflows.finalize_best R sid wid mtm ok =
            (.mergeError, R, [GitCmd.checkout s0.base_branch,
              GitCmd.merge (Workflows.get_branch_name R sid wid)]) := by
          simp [Workflows.finalize_best, h0, hw, hc, hmo.1, hmo.2]
        rw [hres]
        refine ⟨by simp [h0], ?_⟩
        intro s hS
        have hs : s = s0 := (Option.some.inj hS).symm
        subst hs
        refine ⟨by simp [hw], ?_⟩
        intro hne
        refine ⟨by simp [hmo], ?_⟩
        intro hM
        exact absurd hmo hM
      · have hc' : (mtm && !ok) = false := by
          revert hc
          cases (mtm && !ok) <;> simp
        have hncond : ¬(mtm = true ∧ ok = false) := by
          cases mtm <;> cases ok <;> simp_all
        have hres : Workflows.finalize_best R sid wid mtm ok =
            (.finalized wid ((s0.worktrees.filter (fun wp => wp.1 != wid)).map Prod.fst), R,
              (if mtm then [GitCmd.checkout s0.base_branch,
                GitCmd.merge (Workflows.get_branch_name R sid wid)] else []) ++
              (s0.worktrees.filter (fun wp => wp.1 != wid)).flatMap (fun wp =>
                [GitCmd.worktreeRemove wp.2,
                 GitCmd.branchDelete (Workflows.get_branch_name R sid wp.1)])) := by
          simp [Workflows.finalize_best, h0, hw, hc']
        rw [hres]
        refine ⟨by simp [h0], ?_⟩
        intro s hS
        have hs : s = s0 := (Option.some.inj hS).symm
        subst hs
        refine ⟨by simp [hw], ?_⟩
        intro hne
        refine ⟨by simp [hncond], ?_⟩
        intro hM
        refine ⟨⟨_, rfl⟩, ?_⟩
        intro w p2 hmem hwne
        refine List.mem_append_right _ (List.mem_flatMap.mpr ⟨(w, p2), ?_, by simp⟩)
        exact List.mem_filter.mpr ⟨hmem, by simp [hwne]⟩

/-- C9: finalize places no completion precondition on the winner: in both
source files its only error outcomes are an unknown session id, an unknown
worktree id, and a failing merge when merging was requested; in every other
case it succeeds — whatever the completion flags — and issues removal of
every other variant, completed ones included. -/
theorem finalize_no_completion_precondition (sid wid : String) (mtm ok : Bool)
    (Rv : Voting.Registry) (Rw : Workflows.Registry) :
    (((Voting.finalize_best Rv sid wid mtm ok).1 = FinalizeResult.sessionNotFound ↔
        alookup Rv sid = none) ∧
      (∀ s, alookup Rv sid = some s →
        (((Voting.finalize_best Rv sid wid mtm ok).1 = FinalizeResult.worktreeNotFound) ↔
          alookup s.worktrees wid = none) ∧
        (alookup s.worktrees wid ≠ none →
          (((Voting.finalize_best Rv sid wid mtm ok).1 = FinalizeResult.mergeError) ↔
            (mtm = true ∧ ok = false)) ∧
          (¬(mtm = true ∧ ok = false) →
            (∃ cl, (Voting.finalize_best Rv sid wid mtm ok).1 =
              FinalizeResult.finalized wid cl) ∧
            (∀ w p, (w, p) ∈ s.worktrees → w ≠ wid →
              GitCmd.worktreeRemove p ∈ (Voting.finalize_best Rv sid wid mtm ok).2.2))))) ∧
    (((Workflows.finalize_best Rw sid wid mtm ok).1 = FinalizeResult.sessionNotFound ↔
        alookup Rw sid = none) ∧
      (∀ s, alookup Rw sid = some s →
        (((Workflows.finalize_best Rw sid wid mtm ok).1 = FinalizeResult.worktreeNotFound) ↔
          alookup s.worktrees wid = none) ∧
        (alookup s.worktrees wid ≠ none →
          (((Workflows.finalize_best Rw sid wid mtm ok).1 = FinalizeResult.mergeError) ↔
            (mtm = true ∧ ok = false)) ∧
          (¬(mtm = true ∧ ok = false) →
            (∃ cl, (Workflows.finalize_best Rw sid wid mtm ok).1 =
              FinalizeResult.finalized wid cl) ∧
            (∀ w p, (w, p) ∈ s.worktrees → w ≠ wid →
              GitCmd.worktreeRemove p ∈ (Workflows.finalize_best Rw sid wid mtm ok).2.2))))) :=
  ⟨finalize_cases_voting Rv sid wid mtm ok, finalize_cases_workflows Rw sid wid mtm ok⟩

/-- Witness for C9: a still-pending winner is finalized without error and
the completed loser is destroyed. -/
theorem finalize_no_completion_precondition_witness :
    alookup sessA.implementations "variant-1" = some false ∧
    (Voting.finalize_best regA "s1" "variant-1" false true).1 =
      FinalizeResult.finalized "variant-1" ["variant-2"] ∧
    GitCmd.worktreeRemove "p2" ∈ (Voting.finalize_best regA "s1" "variant-1" false true).2.2 := by
  have h := finalize_no_completion_precondition "s1" "variant-1" false true regA regW
  have h2 := ((h.1.2 sessA rfl).2 (by decide)).2 (by simp)
  exact ⟨rfl, by decide, h2.2 "variant-2" "p2" (by decide) (by decide)⟩

/-- C10: `get_worktree_info` is not read-only — as a side effect of the
lookup it flips to complete exactly the still-pending variants whose
`execution.log` contains the sentinel (the oracle `logC`), writes the
updated session back, modifies nothing else (neither the other session
fields nor other sessions), and the report it returns shows the updated
completion flags. -/
theorem info_query_side_effect (logC : String → Bool) (R : Workflows.Registry)
    (sid : String) (wq : Option String) (s : Workflows.Session)
    (hS : alookup R sid = some s)
    (hNd : (s.worktrees.map Prod.fst).Nodup) :
    alookup (Workflows.get_worktree_info logC R sid wq).2 sid =
      some (Workflows.updateCompletions logC s) ∧
    (∀ wid path, alookup s.worktrees wid = some path →
      alookup (Workflows.updateCompletions logC s).implementations wid =
        if (alookup s.implementations wid).getD false || logC path then some true
        else alookup s.implementations wid) ∧
    (Workflows.updateCompletions logC s).worktrees = s.worktrees ∧
    (Workflows.updateCompletions logC s).evaluations = s.evaluations ∧
    (Workflows.updateCompletions logC s).execution_results = s.execution_results ∧
    (Workflows.updateCompletions logC s).task = s.task ∧
    (Workflows.updateCompletions logC s).base_branch = s.base_branch ∧
    (Workflows.updateCompletions logC s).task_slug = s.task_slug ∧
    (∀ sid', sid' ≠ sid →
      alookup (Workflows.get_worktree_info logC R sid wq).2 sid' = alookup R sid') ∧
    (wq = none →
      (Workflows.get_worktree_info logC R sid wq).1 = Workflows.InfoResult.all
        ((Workflows.updateCompletions logC s).worktrees.map (fun wp =>
          ⟨wp.1, wp.2,
           (alookup (Workflows.updateCompletions logC s).implementations wp.1).getD false,
           logC wp.2,
           Workflows.sessionBranchName sid (Workflows.updateCompletions logC s).task_slug wp.1⟩)) ∧
      (∀ e ∈ ((Workflows.updateCompletions logC s).worktrees.map (fun wp =>
          (⟨wp.1, wp.2,
            (alookup (Workflows.updateCompletions logC s).implementations wp.1).getD false,
            logC wp.2,
            Workflows.sessionBranchName sid (Workflows.updateCompletions logC s).task_slug wp.1⟩ :
              Workflows.InfoEntry))),
        e.completed =
          (alookup (Workflows.updateCompletions logC s).implementations e.id).getD false)) := by
  have hreg : (Workflows.get_worktree_info logC R sid wq).2 =
      dictSet R sid (Workflows.updateCompletions logC s) := by
    rw [get_worktree_info_reg]
    unfold Workflows.monitorTick
    rw [hS]
  refine ⟨?_, ?_, rfl, rfl, rfl, rfl, rfl, rfl, ?_, ?_⟩
  · rw [hreg, alookup_dictSet, if_pos rfl]
  · intro wid path hw
    exact foldCompletions_lookup logC s.worktrees s.implementations wid path hNd hw
  · intro sid' hne
    rw [hreg, alookup_dictSet, if_neg (fun hh => hne hh.symm)]
  · intro hwq
    subst hwq
    constructor
    · simp [Workflows.get_worktree_info, hS]
    · intro e he
      obtain ⟨wp, hwp, rfl⟩ := List.mem_map.mp he
      rfl

/-- Witness for C10: on the concrete session the query flips the pending
variant-2, whose log has the sentinel, to complete. -/
theorem info_query_side_effect_witness :
    alookup regW "abc" = some sessW ∧
    alookup (Workflows.get_worktree_info logA regW "abc" none).2 "abc" = some sessW2 ∧
    alookup sessW2.implementations "variant-2" = some true := by
  have h := info_query_side_effect logA regW "abc" none sessW rfl (by decide)
  have h1 : alookup (Workflows.get_worktree_info logA regW "abc" none).2 "abc" = some sessW2 := by
    rw [h.1]
    decide
  exact ⟨rfl, h1, by decide⟩
